import Mathlib

/-!
Verification of the C++-subset-to-Python transpiler (src/transpiler.py).

The development shallowly embeds the three components of the program:

* the PLY lexer (token rules of lines 5-84 of src/transpiler.py),
* the PLY yacc parser with its synthesized string attributes
  (productions of lines 87-277), including PLY's default error-recovery
  behaviour (pop the stack, discard the offending token, restart at the
  initial state; an error at end of input makes the parse return no
  result),
* the emitter helpers: the module-level function indent (lines 279-281)
  and the re-indentation performed inside p_compound_statement
  (lines 207-211),

together with the driver convert_cpp_to_python (lines 284-291).

Strings are modelled as Lean String values; the string-manipulating
Python idioms (split, join, rstrip) are re-implemented over the
underlying character lists so that their behaviour can be reasoned
about directly.  Python float stringification of numeric literals is
modelled for the short decimal literals the lexer accepts (leading
zeros of the integer part and trailing zeros of the fractional part
are normalized); this is exact for all inputs appearing in this file.
-/

namespace Transpiler

/-- Characters that Python str.strip and str.rstrip remove by default. -/
def isWsChar (c : Char) : Bool :=
  c = ' ' || c = '\t' || c = '\n' || c = '\r' || c = '\x0b' || c = '\x0c'

/-- Model of Python str.split applied with separator newline:
splitNlL l is the list of newline-free segments of l, one more segment
than there are newline characters. -/
def splitNlL : List Char → List (List Char)
  | [] => [[]]
  | '\n' :: rest => [] :: splitNlL rest
  | c :: rest =>
    match splitNlL rest with
    | [] => [[c]]
    | l :: ls => (c :: l) :: ls

/-- Model of Python newline-join: joinNlL ls concatenates the segments
of ls with a newline between consecutive segments. -/
def joinNlL : List (List Char) → List Char
  | [] => []
  | [l] => l
  | l :: ls => l ++ '\n' :: joinNlL ls

/-- Model of Python str.rstrip with no argument: remove all trailing
whitespace characters. -/
def rstripWsL : List Char → List Char
  | [] => []
  | c :: rest =>
    match rstripWsL rest with
    | [] => if isWsChar c then [] else [c]
    | r => c :: r

/-- Model of Python rstrip applied to the newline character only, as in
code.rstrip of line 280 of src/transpiler.py. -/
def rstripNlL : List Char → List Char
  | [] => []
  | c :: rest =>
    match rstripNlL rest with
    | [] => if c = '\n' then [] else [c]
    | r => c :: r

/-- A line is blank when Python line.strip() is empty, i.e. every
character is whitespace. -/
def lineBlankL (l : List Char) : Bool := l.all isWsChar

/-- The per-line transformation of both indent sites in the source:
a non-blank line receives four leading spaces, a blank line becomes
empty. -/
def indentLineL (l : List Char) : List Char :=
  if lineBlankL l then [] else ' ' :: ' ' :: ' ' :: ' ' :: l

/-- The function indent of src/transpiler.py lines 279-281:
strip trailing newlines, split into lines, indent each non-blank line
by four spaces (blank lines become empty), re-join, and append a final
newline. -/
def indent (code : String) : String :=
  ⟨joinNlL ((splitNlL (rstripNlL code.data)).map indentLineL) ++ ['\n']⟩

/-- The re-indentation performed inside p_compound_statement
(src/transpiler.py lines 207-211): split into lines, indent each
non-blank line by four spaces (blank lines become empty), re-join,
strip all trailing whitespace, and append a final newline. -/
def compoundIndent (s : String) : String :=
  ⟨rstripWsL (joinNlL ((splitNlL s.data).map indentLineL)) ++ ['\n']⟩

/-- Token kinds of the lexer (src/transpiler.py lines 5-16).  Value-carrying
tokens store the value the corresponding PLY rule attaches: the matched
lexeme for IDENTIFIER, the Python stringification of the stored int/float
for NUMBER (the parser only ever applies str to it), and the re-quoted
literal text for STRING_LITERAL. -/
inductive Tok where
  | INCLUDE | IOSTREAM
  | INT | FLOAT | STRING | VOID
  | COUT | CIN | IF | ELSE | WHILE | FOR | RETURN
  | USING | NAMESPACE | STD
  | IDENTIFIER (s : String) | NUMBER (s : String) | STRING_LITERAL (s : String)
  | PLUS | MINUS | TIMES | DIVIDE
  | LPAREN | RPAREN | LBRACE | RBRACE
  | SEMICOLON | EQUALS | COMMA
  | LESS | GREATER | LESSEQUAL | GREATEREQUAL
  | LEFTSHIFT | RIGHTSHIFT
deriving DecidableEq, Repr

/-- Reserved-word table of src/transpiler.py lines 42-59. -/
def reservedOf (s : String) : Option Tok :=
  match s with
  | "include" => some .INCLUDE
  | "iostream" => some .IOSTREAM
  | "int" => some .INT
  | "float" => some .FLOAT
  | "string" => some .STRING
  | "void" => some .VOID
  | "cout" => some .COUT
  | "cin" => some .CIN
  | "if" => some .IF
  | "else" => some .ELSE
  | "while" => some .WHILE
  | "for" => some .FOR
  | "return" => some .RETURN
  | "using" => some .USING
  | "namespace" => some .NAMESPACE
  | "std" => some .STD
  | _ => none

/-- First character of an identifier, regex [a-zA-Z_]. -/
def isIdentStart (c : Char) : Bool := c.isAlpha || c = '_'

/-- Later character of an identifier, regex [a-zA-Z_0-9]. -/
def isIdentChar (c : Char) : Bool := c.isAlpha || c = '_' || c.isDigit

/-- Leading zeros dropped as by Python int-of-string followed by str
(used for the integer part of numeric literals). -/
def stripLeadingZeros (l : List Char) : List Char :=
  match l.dropWhile (fun c => c = '0') with
  | [] => ['0']
  | r => r

/-- Trailing zeros dropped, keeping at least one digit (used for the
fractional part of numeric literals, as in Python str-of-float for the
short decimals the lexer accepts). -/
def stripTrailingZeros (l : List Char) : List Char :=
  match (l.reverse.dropWhile (fun c => c = '0')).reverse with
  | [] => ['0']
  | r => r

/-- Stringification of the value stored by t_NUMBER
(src/transpiler.py lines 66-69): a literal with a decimal point is
stored as a float, otherwise as an int; the parser renders it with str. -/
def numberValue (intPart fracPart : List Char) (isFloat : Bool) : String :=
  if isFloat then ⟨stripLeadingZeros intPart ++ '.' :: stripTrailingZeros fracPart⟩
  else ⟨stripLeadingZeros intPart⟩

/-- Diagnostic printed by t_error (src/transpiler.py lines 82-84). -/
def lexErrMsg (c : Char) (ln : Nat) : String :=
  "Illegal character '" ++ String.singleton c ++ "' at line " ++ toString ln

/-- Pair update helpers used by the lexer loop: prepend a produced
token, or prepend a printed diagnostic. -/
def tokCons (t : Tok) (p : List Tok × List String) : List Tok × List String :=
  (t :: p.1, p.2)

/-- Prepend a printed diagnostic to the lexer output. -/
def diagCons (m : String) (p : List Tok × List String) : List Tok × List String :=
  (p.1, m :: p.2)

/-- Lookahead test: does the list start with the given character? -/
def headIs (x : Char) : List Char → Bool
  | y :: _ => y = x
  | [] => false

/-- Reserved-word classification of a matched identifier lexeme
(t_IDENTIFIER, src/transpiler.py lines 61-64). -/
def keywordOrIdent (w : String) : Tok :=
  match reservedOf w with
  | some k => k
  | none => .IDENTIFIER w

/-- Does the remainder after a digit run continue the NUMBER regex,
i.e. start with a decimal point followed by a digit? -/
def fracStart : List Char → Bool
  | '.' :: d :: _ => d.isDigit
  | _ => false

/-- Core lexer loop: one token rule application per step, mirroring the
PLY master regex built from lines 18-84 of src/transpiler.py (function
rules LEFTSHIFT, RIGHTSHIFT, IDENTIFIER, NUMBER, STRING_LITERAL, newline
first, then the literal rules longest first; spaces, tabs and carriage
returns ignored; unknown characters reported and skipped one at a time).
Returns the token stream and the list of printed lexer diagnostics.
The fuel argument strictly exceeds the input length, and every step
consumes at least one character, so the zero-fuel branch is unreachable. -/
def lexLoop : Nat → Nat → List Char → List Tok × List String
  | 0, _, _ => ([], [])
  | _ + 1, _, [] => ([], [])
  | fuel + 1, ln, c :: rest =>
    if c = ' ' || c = '\t' || c = '\r' then lexLoop fuel ln rest
    else if c = '\n' then lexLoop fuel (ln + 1) rest
    else if c = '<' then
      if headIs '<' rest then tokCons .LEFTSHIFT (lexLoop fuel ln rest.tail)
      else if headIs '=' rest then tokCons .LESSEQUAL (lexLoop fuel ln rest.tail)
      else tokCons .LESS (lexLoop fuel ln rest)
    else if c = '>' then
      if headIs '>' rest then tokCons .RIGHTSHIFT (lexLoop fuel ln rest.tail)
      else if headIs '=' rest then tokCons .GREATEREQUAL (lexLoop fuel ln rest.tail)
      else tokCons .GREATER (lexLoop fuel ln rest)
    else if isIdentStart c then
      tokCons (keywordOrIdent ⟨c :: rest.takeWhile isIdentChar⟩)
        (lexLoop fuel ln (rest.dropWhile isIdentChar))
    else if c.isDigit then
      let ds0 := c :: rest.takeWhile Char.isDigit
      let r2 := rest.dropWhile Char.isDigit
      if fracStart r2 then
        tokCons (.NUMBER (numberValue ds0 (r2.tail.takeWhile Char.isDigit) true))
          (lexLoop fuel ln (r2.tail.dropWhile Char.isDigit))
      else
        tokCons (.NUMBER (numberValue ds0 [] false)) (lexLoop fuel ln r2)
    else if c = '"' then
      if rest.contains '"' then
        tokCons (.STRING_LITERAL ⟨'"' :: (rest.takeWhile (fun x => x ≠ '"') ++ ['"'])⟩)
          (lexLoop fuel ln (rest.dropWhile (fun x => x ≠ '"')).tail)
      else diagCons (lexErrMsg c ln) (lexLoop fuel ln rest)
    else if c = '+' then tokCons .PLUS (lexLoop fuel ln rest)
    else if c = '-' then tokCons .MINUS (lexLoop fuel ln rest)
    else if c = '*' then tokCons .TIMES (lexLoop fuel ln rest)
    else if c = '/' then tokCons .DIVIDE (lexLoop fuel ln rest)
    else if c = '(' then tokCons .LPAREN (lexLoop fuel ln rest)
    else if c = ')' then tokCons .RPAREN (lexLoop fuel ln rest)
    else if c = '\x7b' then tokCons .LBRACE (lexLoop fuel ln rest)
    else if c = '\x7d' then tokCons .RBRACE (lexLoop fuel ln rest)
    else if c = ';' then tokCons .SEMICOLON (lexLoop fuel ln rest)
    else if c = '=' then tokCons .EQUALS (lexLoop fuel ln rest)
    else if c = ',' then tokCons .COMMA (lexLoop fuel ln rest)
    else diagCons (lexErrMsg c ln) (lexLoop fuel ln rest)

/-- The lexer: token stream and printed diagnostics for a source text,
starting at line 1 as PLY does. -/
def lexTokens (s : String) : List Tok × List String :=
  lexLoop (s.data.length + 1) 1 s.data

/-- Lexeme of the binary operators accepted inside expression
(src/transpiler.py lines 256-263); the synthesized attribute embeds the
operator token value between single spaces. -/
def binOpStr : Tok → Option String
  | .PLUS => some ("+")
  | .MINUS => some ("-")
  | .TIMES => some ("*")
  | .DIVIDE => some ("/")
  | .LESS => some ("<")
  | .GREATER => some (">")
  | .LESSEQUAL => some ("<=")
  | .GREATEREQUAL => some (">=")
  | _ => none

/-- Lexeme of a type keyword, the value p_type passes through
(src/transpiler.py lines 149-154). -/
def typeStr : Tok → Option String
  | .INT => some ("int")
  | .FLOAT => some ("float")
  | .STRING => some ("string")
  | .VOID => some ("void")
  | _ => none

/-- Tokens that can begin a statement (the FIRST set of the statement
nonterminal, src/transpiler.py lines 99-113); the parser keeps reducing
statements while the lookahead is one of these. -/
def startsStatement : Tok → Bool
  | .INCLUDE | .USING | .INT | .FLOAT | .STRING | .VOID | .IDENTIFIER _
  | .COUT | .CIN | .IF | .WHILE | .FOR | .RETURN
  | .NUMBER _ | .STRING_LITERAL _ | .LPAREN => true
  | _ => false

/-- Tokens that can begin an expression. -/
def startsExpr : Tok → Bool
  | .IDENTIFIER _ | .NUMBER _ | .STRING_LITERAL _ | .LPAREN => true
  | _ => false

/-- One assignment line synthesized for a declarator by p_declaration
(src/transpiler.py lines 123-131). -/
def declLineStr (ty name : String) (v : Option String) : String :=
  match v with
  | none => name ++ " = None  # " ++ ty ++ " in C++"
  | some value => name ++ " = " ++ value ++ "  # " ++ ty ++ " in C++"

/-- Newline-join of the declarator lines followed by a final newline,
the attribute of the declaration nonterminal. -/
def declStr (ty : String) (ds : List (String × Option String)) : String :=
  ⟨joinNlL ((ds.map fun d => declLineStr ty d.1 d.2).map String.data) ++ ['\n']⟩

/-!
The parser.  PLY builds an LALR automaton for the grammar of
src/transpiler.py lines 87-277; on this grammar the automaton's
behaviour coincides with the predictive recursive descent implemented
below (every alternative is chosen by at most two tokens of lookahead,
and the ambiguous binary-operator productions, which PLY resolves by
preferring shift, synthesize the same flat string under any
association, since p_expression adds no parentheses).  A parse
function returns Except.error r where r is the token list beginning at
the offending token (r = [] meaning the error is at end of input),
matching the token at which the LALR automaton has no action.  Fuel
decreases at each nested call; callers supply fuel well above the
nesting depth, so the zero-fuel branch is unreachable on every input
considered here.
-/

/-- Parse outcome: synthesized string attribute plus remaining tokens,
or the remaining tokens starting at the offending token. -/
abbrev PRes := Except (List Tok) (String × List Tok)

mutual

/-- Primary expressions of p_expression (src/transpiler.py lines
252-271): identifier, number, string literal (each rendered with str),
or a parenthesized expression rendered inside literal parentheses. -/
def parsePrimary : Nat → List Tok → PRes
  | 0, toks => .error toks
  | fuel + 1, toks =>
    match toks with
    | .IDENTIFIER s :: rest => .ok (s, rest)
    | .NUMBER s :: rest => .ok (s, rest)
    | .STRING_LITERAL s :: rest => .ok (s, rest)
    | .LPAREN :: rest =>
      match parseExpr fuel rest with
      | .ok (e, .RPAREN :: r2) => .ok ("(" ++ e ++ ")", r2)
      | .ok (_, r2) => .error r2
      | .error r => .error r
    | rest => .error rest

/-- Binary-operator continuation of p_expression: while the lookahead
is one of the eight operators, append the operator value and the next
primary, separated by single spaces. -/
def parseExprLoop : Nat → String → List Tok → PRes
  | 0, _, toks => .error toks
  | fuel + 1, acc, toks =>
    match toks with
    | t :: rest =>
      match binOpStr t with
      | some op =>
        match parsePrimary fuel rest with
        | .ok (e, r2) => parseExprLoop fuel (acc ++ " " ++ op ++ " " ++ e) r2
        | .error r => .error r
      | none => .ok (acc, toks)
    | [] => .ok (acc, [])

/-- Expression: a primary followed by binary-operator continuations. -/
def parseExpr : Nat → List Tok → PRes
  | 0, toks => .error toks
  | fuel + 1, toks =>
    match parsePrimary fuel toks with
    | .ok (e, rest) => parseExprLoop fuel e rest
    | .error r => .error r

/-- Declarator list of p_declarator_list and p_declarator
(src/transpiler.py lines 133-147): identifiers with optional
initializer expressions, separated by commas. -/
def parseDeclarators : Nat → List Tok → Except (List Tok) (List (String × Option String) × List Tok)
  | 0, toks => .error toks
  | fuel + 1, toks =>
    match toks with
    | .IDENTIFIER name :: rest =>
      match rest with
      | .EQUALS :: r2 =>
        match parseExpr fuel r2 with
        | .ok (v, r3) =>
          match r3 with
          | .COMMA :: r4 =>
            match parseDeclarators fuel r4 with
            | .ok (ds, r5) => .ok ((name, some v) :: ds, r5)
            | .error r => .error r
          | _ => .ok ([(name, some v)], r3)
        | .error r => .error r
      | .COMMA :: r2 =>
        match parseDeclarators fuel r2 with
        | .ok (ds, r3) => .ok ((name, none) :: ds, r3)
        | .error r => .error r
      | _ => .ok ([(name, none)], rest)
    | rest => .error rest

/-- Declaration after its leading type keyword: declarator list then
semicolon; the attribute is the newline-joined assignment lines plus a
final newline (p_declaration, src/transpiler.py lines 123-131). -/
def parseDeclTail (fuel : Nat) (ty : String) (toks : List Tok) : PRes :=
  match fuel with
  | 0 => .error toks
  | fuel + 1 =>
    match parseDeclarators fuel toks with
    | .ok (ds, rest) =>
      match rest with
      | .SEMICOLON :: r2 => .ok (declStr ty ds, r2)
      | r2 => .error r2
    | .error r => .error r

/-- Parameter list of p_parameters_empty / _single / _multi
(src/transpiler.py lines 220-230): possibly empty; each parameter is a
type keyword and a name; the attribute keeps only the comma-joined
names. -/
def parseParams : Nat → List Tok → PRes
  | 0, toks => .error toks
  | fuel + 1, toks =>
    match toks with
    | t :: rest =>
      match typeStr t with
      | some _ =>
        match rest with
        | .IDENTIFIER n :: r2 =>
          match r2 with
          | .COMMA :: r3 =>
            match parseParams fuel r3 with
            | .ok (ps, r4) => .ok (n ++ ", " ++ ps, r4)
            | .error r => .error r
          | _ => .ok (n, r2)
        | r2 => .error r2
      | none => .ok ("", toks)
    | [] => .ok ("", [])

/-- Argument list of p_arguments_empty / _single / _multi
(src/transpiler.py lines 236-246): possibly empty comma-joined
expressions. -/
def parseArgs : Nat → List Tok → PRes
  | 0, toks => .error toks
  | fuel + 1, toks =>
    match toks with
    | t :: _ =>
      if startsExpr t then
        match parseExpr fuel toks with
        | .ok (e, rest) =>
          match rest with
          | .COMMA :: r2 =>
            match parseArgs fuel r2 with
            | .ok (as_, r3) => .ok (e ++ ", " ++ as_, r3)
            | .error r => .error r
          | _ => .ok (e, rest)
        | .error r => .error r
      else .ok ("", toks)
    | [] => .ok ("", [])

/-- Chained output arguments of p_cout_args (src/transpiler.py lines
164-170): expressions separated by the left-shift token, joined with a
comma and space. -/
def parseCoutArgs : Nat → String → List Tok → PRes
  | 0, _, toks => .error toks
  | fuel + 1, acc, toks =>
    match toks with
    | .LEFTSHIFT :: rest =>
      match parseExpr fuel rest with
      | .ok (e, r2) => parseCoutArgs fuel (acc ++ ", " ++ e) r2
      | .error r => .error r
    | _ => .ok (acc, toks)

/-- Chained input arguments of p_cin_args_single / _multi
(src/transpiler.py lines 176-182): identifiers separated by the
right-shift token, one input line per identifier. -/
def parseCinArgs : Nat → List Tok → PRes
  | 0, toks => .error toks
  | fuel + 1, toks =>
    match toks with
    | .IDENTIFIER n :: rest =>
      match rest with
      | .RIGHTSHIFT :: r2 =>
        match parseCinArgs fuel r2 with
        | .ok (s, r3) => .ok (n ++ " = input()\n" ++ s, r3)
        | .error r => .error r
      | _ => .ok (n ++ " = input()\n", rest)
    | rest => .error rest

/-- One statement (p_statement and the per-construct productions of
src/transpiler.py lines 99-271), synthesizing the translated text. -/
def parseStatement : Nat → List Tok → PRes
  | 0, toks => .error toks
  | fuel + 1, toks =>
    match toks with
    | .INCLUDE :: rest =>
      match rest with
      | .LESS :: r2 =>
        match r2 with
        | .IOSTREAM :: r3 =>
          match r3 with
          | .GREATER :: r4 => .ok ("# C++ iostream included\n", r4)
          | r4 => .error r4
        | r3 => .error r3
      | r2 => .error r2
    | .USING :: rest =>
      match rest with
      | .NAMESPACE :: r2 =>
        match r2 with
        | .STD :: r3 =>
          match r3 with
          | .SEMICOLON :: r4 => .ok ("# using namespace std; (ignored in Python)\n", r4)
          | r4 => .error r4
        | r3 => .error r3
      | r2 => .error r2
    | .COUT :: rest =>
      match rest with
      | .LEFTSHIFT :: r2 =>
        match parseExpr fuel r2 with
        | .ok (e, r3) =>
          match parseCoutArgs fuel e r3 with
          | .ok (args, r4) =>
            match r4 with
            | .SEMICOLON :: r5 => .ok ("print(" ++ args ++ ")\n", r5)
            | r5 => .error r5
          | .error r => .error r
        | .error r => .error r
      | r2 => .error r2
    | .CIN :: rest =>
      match rest with
      | .RIGHTSHIFT :: r2 =>
        match parseCinArgs fuel r2 with
        | .ok (s, r3) =>
          match r3 with
          | .SEMICOLON :: r4 => .ok (s, r4)
          | r4 => .error r4
        | .error r => .error r
      | r2 => .error r2
    | .IF :: rest =>
      match rest with
      | .LPAREN :: r2 =>
        match parseExpr fuel r2 with
        | .ok (c, r3) =>
          match r3 with
          | .RPAREN :: r4 =>
            match parseCompound fuel r4 with
            | .ok (thenB, r5) =>
              match r5 with
              | .ELSE :: r6 =>
                match parseCompound fuel r6 with
                | .ok (elseB, r7) =>
                  .ok ("if " ++ c ++ ":\n" ++ thenB ++ "else:\n" ++ elseB, r7)
                | .error r => .error r
              | _ => .ok ("if " ++ c ++ ":\n" ++ thenB, r5)
            | .error r => .error r
          | r4 => .error r4
        | .error r => .error r
      | r2 => .error r2
    | .WHILE :: rest =>
      match rest with
      | .LPAREN :: r2 =>
        match parseExpr fuel r2 with
        | .ok (c, r3) =>
          match r3 with
          | .RPAREN :: r4 =>
            match parseCompound fuel r4 with
            | .ok (b, r5) => .ok ("while " ++ c ++ ":\n" ++ b, r5)
            | .error r => .error r
          | r4 => .error r4
        | .error r => .error r
      | r2 => .error r2
    | .FOR :: rest =>
      match rest with
      | .LPAREN :: r2 =>
        match r2 with
        | t :: _ =>
          match typeStr t with
          | some ty =>
            match parseDeclTail fuel ty r2.tail with
            | .ok (d, r3) =>
              match parseExpr fuel r3 with
              | .ok (c, r4) =>
                match r4 with
                | .SEMICOLON :: r5 =>
                  match parseExpr fuel r5 with
                  | .ok (st, r6) =>
                    match r6 with
                    | .RPAREN :: r7 =>
                      match parseCompound fuel r7 with
                      | .ok (b, r8) =>
                        .ok (d ++ "while " ++ c ++ ":\n" ++ indent b ++ indent st ++ "\n", r8)
                      | .error r => .error r
                    | r7 => .error r7
                  | .error r => .error r
                | r5 => .error r5
              | .error r => .error r
            | .error r => .error r
          | none =>
            match parseExpr fuel r2 with
            | .ok (i, r3) =>
              match r3 with
              | .SEMICOLON :: r4 =>
                match parseExpr fuel r4 with
                | .ok (c, r5) =>
                  match r5 with
                  | .SEMICOLON :: r6 =>
                    match parseExpr fuel r6 with
                    | .ok (st, r7) =>
                      match r7 with
                      | .RPAREN :: r8 =>
                        match parseCompound fuel r8 with
                        | .ok (b, r9) =>
                          .ok (i ++ "\n" ++ "while " ++ c ++ ":\n" ++ indent b ++ indent st ++ "\n", r9)
                        | .error r => .error r
                      | r8 => .error r8
                    | .error r => .error r
                  | r6 => .error r6
                | .error r => .error r
              | r4 => .error r4
            | .error r => .error r
        | [] => .error []
      | r2 => .error r2
    | .RETURN :: rest =>
      match parseExpr fuel rest with
      | .ok (e, r2) =>
        match r2 with
        | .SEMICOLON :: r3 => .ok ("return " ++ e ++ "\n", r3)
        | r3 => .error r3
      | .error r => .error r
    | t :: rest =>
      match typeStr t with
      | some ty =>
        match rest with
        | .IDENTIFIER name :: .LPAREN :: r2 =>
          match parseParams fuel r2 with
          | .ok (ps, r3) =>
            match r3 with
            | .RPAREN :: r4 =>
              match parseCompound fuel r4 with
              | .ok (b, r5) =>
                if name = "main" then
                  .ok ("if __name__ == \"__main__\":\n" ++ b, r5)
                else
                  .ok ("def " ++ name ++ "(" ++ ps ++ "):\n" ++ b, r5)
              | .error r => .error r
            | r4 => .error r4
          | .error r => .error r
        | _ => parseDeclTail fuel ty rest
      | none =>
        match toks with
        | .IDENTIFIER name :: .EQUALS :: r2 =>
          match parseExpr fuel r2 with
          | .ok (e, r3) =>
            match r3 with
            | .SEMICOLON :: r4 => .ok (name ++ " = " ++ e ++ "\n", r4)
            | r4 => .error r4
          | .error r => .error r
        | .IDENTIFIER name :: .LPAREN :: r2 =>
          match parseArgs fuel r2 with
          | .ok (as_, r3) =>
            match r3 with
            | .RPAREN :: .SEMICOLON :: r4 => .ok (name ++ "(" ++ as_ ++ ")\n", r4)
            | .RPAREN :: r4 => .error r4
            | r4 => .error r4
          | .error r => .error r
        | .IDENTIFIER name :: r2 =>
          match parseExprLoop fuel name r2 with
          | .ok (e, r3) =>
            match r3 with
            | .SEMICOLON :: r4 => .ok (e, r4)
            | r4 => .error r4
          | .error r => .error r
        | _ =>
          if startsExpr t then
            match parseExpr fuel toks with
            | .ok (e, r2) =>
              match r2 with
              | .SEMICOLON :: r3 => .ok (e, r3)
              | r3 => .error r3
            | .error r => .error r
          else .error toks
    | [] => .error []

/-- Compound statement (p_compound_statement, src/transpiler.py lines
207-211): braces around a nonempty statement sequence, whose
concatenated text is re-indented. -/
def parseCompound : Nat → List Tok → PRes
  | 0, toks => .error toks
  | fuel + 1, toks =>
    match toks with
    | .LBRACE :: rest =>
      match parseStatements fuel rest with
      | .ok (s, r2) =>
        match r2 with
        | .RBRACE :: r3 => .ok (compoundIndent s, r3)
        | r3 => .error r3
      | .error r => .error r
    | rest => .error rest

/-- Nonempty statement sequence (p_statements, src/transpiler.py lines
91-97): concatenation of the statements' texts. -/
def parseStatements : Nat → List Tok → PRes
  | 0, toks => .error toks
  | fuel + 1, toks =>
    match parseStatement fuel toks with
    | .ok (s, rest) => parseStmtsLoop fuel s rest
    | .error r => .error r

/-- Continuation of p_statements: keep parsing statements while the
lookahead can begin one, concatenating the synthesized texts. -/
def parseStmtsLoop : Nat → String → List Tok → PRes
  | 0, _, toks => .error toks
  | fuel + 1, acc, toks =>
    match toks with
    | t :: _ =>
      if startsStatement t then
        match parseStatement fuel toks with
        | .ok (s, rest) => parseStmtsLoop fuel (acc ++ s) rest
        | .error r => .error r
      else .ok (acc, toks)
    | [] => .ok (acc, [])

end

/-- One attempt of the LALR parse with no recovery: the whole token
list must reduce to the program nonterminal (p_program), otherwise the
offending-token position is reported. -/
def parseProgramCore (toks : List Tok) : Except (List Tok) String :=
  match parseStatements (10 * toks.length + 10) toks with
  | .ok (s, []) => .ok s
  | .ok (_, rest) => .error rest
  | .error r => .error r

/-- PLY's default error recovery for a grammar without error
productions (ply.yacc parse loop): on a syntax error the stack is
popped to the initial state, the offending token is discarded, and
parsing restarts from scratch on the remaining tokens, so the final
result is the parse of the suffix after the last discarded token; a
syntax error at end of input makes the parse return no result. -/
def parseRecover : Nat → List Tok → Option String
  | 0, _ => none
  | fuel + 1, toks =>
    match parseProgramCore toks with
    | .ok s => some s
    | .error [] => none
    | .error (_ :: rest) => parseRecover fuel rest

/-- The driver convert_cpp_to_python (src/transpiler.py lines
284-291): lex and parse the input; a parse yielding no result (None,
or an empty string, which Python's truthiness test also rejects)
produces the fixed fallback string.  The except branch of the source
converts an internal exception into an error string; the modelled
operations are total, so that branch has no counterpart here. -/
def convert_cpp_to_python (cpp_code : String) : String :=
  let toks := (lexTokens cpp_code).1
  match parseRecover (toks.length + 1) toks with
  | some result => if result = "" then ("# Unable to convert C++ code.") else result
  | none => "# Unable to convert C++ code."

/-!
Derivation trees.  The source parser keeps no tree: each production
immediately synthesizes a string.  To state properties over all
accepted source programs we reify the derivations of the grammar
(lines 87-271 of src/transpiler.py) as an inductive family and
transcribe each production's string action verbatim; the parser above
performs exactly these actions, so the emitters below are the same
templates applied to a derivation tree instead of on the fly.
-/

/-- The eight binary operator terminals of p_expression. -/
inductive BinOp where
  | plus | minus | times | divide | lt | gt | le | ge
deriving DecidableEq, Repr

/-- The operator lexeme, the token value interpolated by p_expression. -/
def opStr : BinOp → String
  | .plus => "+"
  | .minus => "-"
  | .times => "*"
  | .divide => "/"
  | .lt => "<"
  | .gt => ">"
  | .le => "<="
  | .ge => ">="

/-- Derivations of the expression nonterminal (src/transpiler.py lines
252-271).  Leaves carry the str-rendered token value. -/
inductive Expr where
  | ident (s : String)
  | num (s : String)
  | strlit (s : String)
  | bin (op : BinOp) (l r : Expr)
  | paren (e : Expr)
deriving DecidableEq, Repr

/-- The attribute of p_expression: leaf values pass through, binary
forms put single spaces around the operator lexeme, parenthesized
forms are wrapped in literal parentheses. -/
def transExpr : Expr → String
  | .ident s => s
  | .num s => s
  | .strlit s => s
  | .bin op l r => transExpr l ++ " " ++ opStr op ++ " " ++ transExpr r
  | .paren e => "(" ++ transExpr e ++ ")"

/-- The four type keywords of p_type (src/transpiler.py lines 149-154). -/
inductive CType where
  | int | float | string | void
deriving DecidableEq, Repr

/-- The type keyword's lexeme, passed through by p_type. -/
def ctypeStr : CType → String
  | .int => "int"
  | .float => "float"
  | .string => "string"
  | .void => "void"

mutual

/-- Derivations of the statement nonterminal (p_statement alternatives,
src/transpiler.py lines 99-113, with each construct's own production). -/
inductive Stmt where
  | includeStmt
  | usingNamespace
  | decl (ty : CType) (ds : List (String × Option Expr))
  | assign (name : String) (e : Expr)
  | coutStmt (args : List Expr)
  | cinStmt (names : List String)
  | ifStmt (c : Expr) (t : StmtList)
  | ifElse (c : Expr) (t e : StmtList)
  | whileStmt (c : Expr) (b : StmtList)
  | forExpr (init cond step : Expr) (b : StmtList)
  | forDecl (ty : CType) (ds : List (String × Option Expr)) (cond step : Expr) (b : StmtList)
  | funcDef (ty : CType) (name : String) (params : List (CType × String)) (b : StmtList)
  | funcCall (name : String) (args : List Expr)
  | ret (e : Expr)
  | exprStmt (e : Expr)

/-- Derivations of the nonempty statements nonterminal (p_statements,
src/transpiler.py lines 91-97). -/
inductive StmtList where
  | single (s : Stmt)
  | cons (s : Stmt) (rest : StmtList)

end

/-- The attribute of p_cout_args (src/transpiler.py lines 164-170):
the left-recursive production folds the chain from the left, joining
the translated expressions with a comma and space. -/
def transCoutArgs : List Expr → String
  | [] => ""
  | e :: es => es.foldl (fun acc x => acc ++ ", " ++ transExpr x) (transExpr e)

/-- The attribute of p_cin_args_single / _multi (src/transpiler.py
lines 176-182): one input line per identifier, in order. -/
def transCinArgs : List String → String
  | [] => ""
  | n :: rest => n ++ " = input()\n" ++ transCinArgs rest

/-- The attribute of p_parameters_empty / _single / _multi
(src/transpiler.py lines 220-230): the comma-joined parameter names,
types discarded. -/
def transParams : List (CType × String) → String
  | [] => ""
  | [(_, n)] => n
  | (_, n) :: rest => n ++ ", " ++ transParams rest

/-- The attribute of p_arguments_empty / _single / _multi
(src/transpiler.py lines 236-246): comma-joined translated argument
expressions. -/
def transArgs : List Expr → String
  | [] => ""
  | [e] => transExpr e
  | e :: rest => transExpr e ++ ", " ++ transArgs rest

/-- The declaration attribute over a derivation: the declarator pairs
with their initializer expressions translated, then the line-per-
declarator join of p_declaration. -/
def transDecl (ty : CType) (ds : List (String × Option Expr)) : String :=
  declStr (ctypeStr ty) (ds.map fun d => (d.1, Option.map transExpr d.2))

mutual

/-- The statement attribute: each alternative transcribes the
corresponding production action of src/transpiler.py
(p_include_statement 115-117, p_using_namespace 119-121, p_declaration
123-131, p_assignment 156-158, p_cout_statement 160-162,
p_cin_statement 172-174, p_if_statement 184-190, p_while_statement
192-194, p_for_statement 196-205, p_function_definition 213-218,
p_function_call 232-234, p_return_statement 248-250, and the
expression-statement alternative of p_statement 112-113). -/
def transStmt : Stmt → String
  | .includeStmt => "# C++ iostream included\n"
  | .usingNamespace => "# using namespace std; (ignored in Python)\n"
  | .decl ty ds => transDecl ty ds
  | .assign name e => name ++ " = " ++ transExpr e ++ "\n"
  | .coutStmt args => "print(" ++ transCoutArgs args ++ ")\n"
  | .cinStmt names => transCinArgs names
  | .ifStmt c t => "if " ++ transExpr c ++ ":\n" ++ compoundIndent (transStmts t)
  | .ifElse c t e =>
    "if " ++ transExpr c ++ ":\n" ++ compoundIndent (transStmts t) ++
      "else:\n" ++ compoundIndent (transStmts e)
  | .whileStmt c b => "while " ++ transExpr c ++ ":\n" ++ compoundIndent (transStmts b)
  | .forExpr i c st b =>
    transExpr i ++ "\n" ++ "while " ++ transExpr c ++ ":\n" ++
      indent (compoundIndent (transStmts b)) ++ indent (transExpr st) ++ "\n"
  | .forDecl ty ds c st b =>
    transDecl ty ds ++ "while " ++ transExpr c ++ ":\n" ++
      indent (compoundIndent (transStmts b)) ++ indent (transExpr st) ++ "\n"
  | .funcDef _ name ps b =>
    if name = "main" then ("if __name__ == \"__main__\":\n") ++ compoundIndent (transStmts b)
    else ("def ") ++ name ++ "(" ++ transParams ps ++ "):\n" ++ compoundIndent (transStmts b)
  | .funcCall name args => name ++ "(" ++ transArgs args ++ ")\n"
  | .ret e => "return " ++ transExpr e ++ "\n"
  | .exprStmt e => transExpr e

/-- The statements attribute (p_statements): concatenation in source
order. -/
def transStmts : StmtList → String
  | .single s => transStmt s
  | .cons s rest => transStmt s ++ transStmts rest

end

/-!
Predicates used by the verification: character-level invariants of the
emitted text, and cleanliness predicates on derivation payloads.
-/

/-- Characters that begin some lexer rule at the current position: the
ignored whitespace characters, the newline rule, the two-character and
one-character operator rules, identifiers, numbers, a string literal
(a double quote with a closing quote somewhere ahead), and the
punctuation rules.  A character for which this is false matches no
token rule, which is exactly when t_error fires. -/
def legalStart (c : Char) (rest : List Char) : Bool :=
  (c = ' ' || c = '\t' || c = '\r') ||
  ((c = '\n') ||
  ((c = '<') ||
  ((c = '>') ||
  (isIdentStart c ||
  (c.isDigit ||
  ((c = '"' && rest.contains '"') ||
  ((c = '+') ||
  ((c = '-') ||
  ((c = '*') ||
  ((c = '/') ||
  ((c = '(') ||
  ((c = ')') ||
  ((c = '\x7b') ||
  ((c = '\x7d') ||
  ((c = ';') ||
  ((c = '=') ||
   (c = ',')))))))))))))))))

def hasPairL (c : Char) : List Char → Bool
  | [] => false
  | [_] => false
  | a :: b :: rest => (a == c && b == c) || hasPairL c (b :: rest)

def headNonWs : List Char → Bool
  | [] => false
  | c :: _ => !isWsChar c

def angleFollowOk : List Char → Bool
  | [] => false
  | [c] => c == '='
  | c :: d :: _ => c == '=' || (c == ' ' && !isWsChar d)

def angleOkL : List Char → Bool
  | [] => true
  | c :: rest =>
    (if c == '<' || c == '>' then angleFollowOk rest else true) && angleOkL rest

def emitOk (s : String) : Prop :=
  angleOkL s.data = true ∧ '\x7b' ∉ s.data ∧ '\x7d' ∉ s.data

def cleanPayloadB (s : String) : Bool :=
  headNonWs s.data && s.data.all fun c => !(c == '<' || c == '>' || c == '\x7b' || c == '\x7d')

def cleanExpr : Expr → Bool
  | .ident s => cleanPayloadB s
  | .num s => cleanPayloadB s
  | .strlit s => cleanPayloadB s
  | .bin _ l r => cleanExpr l && cleanExpr r
  | .paren e => cleanExpr e

def cleanDecl (ds : List (String × Option Expr)) : Bool :=
  ds.all fun d => cleanPayloadB d.1 &&
    (match d.2 with
     | none => true
     | some e => cleanExpr e)

mutual

def cleanStmt : Stmt → Bool
  | .includeStmt => true
  | .usingNamespace => true
  | .decl _ ds => cleanDecl ds
  | .assign name e => cleanPayloadB name && cleanExpr e
  | .coutStmt args => args.all cleanExpr
  | .cinStmt names => names.all cleanPayloadB
  | .ifStmt c t => cleanExpr c && cleanStmts t
  | .ifElse c t e => cleanExpr c && cleanStmts t && cleanStmts e
  | .whileStmt c b => cleanExpr c && cleanStmts b
  | .forExpr i c st b => cleanExpr i && cleanExpr c && cleanExpr st && cleanStmts b
  | .forDecl _ ds c st b => cleanDecl ds && cleanExpr c && cleanExpr st && cleanStmts b
  | .funcDef _ name ps b =>
    cleanPayloadB name && ps.all (fun p => cleanPayloadB p.2) && cleanStmts b
  | .funcCall name args => cleanPayloadB name && args.all cleanExpr
  | .ret e => cleanExpr e
  | .exprStmt e => cleanExpr e

def cleanStmts : StmtList → Bool
  | .single s => cleanStmt s
  | .cons s rest => cleanStmt s && cleanStmts rest

end

def joinSep (sep : String) : List String → String
  | [] => ""
  | [s] => s
  | s :: rest => s ++ sep ++ joinSep sep rest

/-- Sample derivation used by the witness of the raw-token theorem:
an include, a two-declarator declaration, and a main definition
containing a for loop with chained output, and an if/else with
return, input. -/
def sampleProgram : StmtList :=
  StmtList.cons Stmt.includeStmt
    (StmtList.cons (Stmt.decl CType.int [("x", some (Expr.num ("5"))), ("y", none)])
      (StmtList.single (Stmt.funcDef CType.int ("main") []
        (StmtList.cons
          (Stmt.forExpr (Expr.ident ("x"))
            (Expr.bin BinOp.lt (Expr.ident ("x")) (Expr.num ("9")))
            (Expr.bin BinOp.plus (Expr.ident ("x")) (Expr.num ("1")))
            (StmtList.single (Stmt.coutStmt [Expr.ident ("x"), Expr.strlit ("\"hi\"")])))
          (StmtList.single
            (Stmt.ifElse (Expr.bin BinOp.ge (Expr.ident ("x")) (Expr.num ("2")))
              (StmtList.single (Stmt.ret (Expr.num ("0"))))
              (StmtList.single (Stmt.cinStmt ["x"]))))))))

/-!
Lemmas and claim theorems.
-/

theorem angleFollowOk_head {b : Char} {r : List Char}
    (h : angleFollowOk (b :: r) = true) : b = '=' ∨ b = ' ' := by
  match r with
  | [] =>
    rw [angleFollowOk, beq_iff_eq] at h
    exact Or.inl h
  | d :: r2 =>
    rw [angleFollowOk, Bool.or_eq_true, beq_iff_eq, Bool.and_eq_true, beq_iff_eq] at h
    rcases h with h | h
    · exact Or.inl h
    · exact Or.inr h.1

theorem angleFollowOk_append {a : List Char} (b : List Char)
    (h : angleFollowOk a = true) : angleFollowOk (a ++ b) = true := by
  match a with
  | [] => exact absurd h (by simp [angleFollowOk])
  | [c] =>
    rw [angleFollowOk, beq_iff_eq] at h
    match b with
    | [] => simpa [angleFollowOk] using h
    | b1 :: bs => simp [angleFollowOk, h]
  | c :: d :: r => simpa [angleFollowOk] using h

theorem angleOk_append : ∀ {a b : List Char},
    angleOkL a = true → angleOkL b = true → angleOkL (a ++ b) = true := by
  intro a
  induction a with
  | nil => intro b _ hb; simpa using hb
  | cons c a2 ih =>
    intro b ha hb
    rw [angleOkL, Bool.and_eq_true] at ha
    rw [List.cons_append, angleOkL, Bool.and_eq_true]
    refine ⟨?_, ih ha.2 hb⟩
    by_cases hc : (c == '<' || c == '>') = true
    · simp only [hc, if_true] at ha ⊢
      exact angleFollowOk_append b ha.1
    · simp only [Bool.not_eq_true] at hc
      simp [hc]

theorem no_angle_pair {c0 : Char} (hc0 : c0 = '<' ∨ c0 = '>') :
    ∀ {l : List Char}, angleOkL l = true → hasPairL c0 l = false := by
  intro l
  induction l with
  | nil => intro _; rfl
  | cons a rest ih =>
    intro h
    rw [angleOkL, Bool.and_eq_true] at h
    match rest with
    | [] => rfl
    | b :: r =>
      rw [hasPairL]
      have h2 : hasPairL c0 (b :: r) = false := ih h.2
      have h1 : (a == c0 && b == c0) = false := by
        by_cases ha : a = c0
        · have hang : (a == '<' || a == '>') = true := by
            rcases hc0 with h' | h' <;> simp [ha, h']
          have hf : angleFollowOk (b :: r) = true := by
            have := h.1
            rwa [if_pos hang] at this
          have hb := angleFollowOk_head hf
          have hbne : b ≠ c0 := by
            rcases hb with h' | h' <;> rcases hc0 with h'' | h'' <;>
              simp [h', h'']
          simp [hbne]
        · simp [ha]
      rw [h1, h2]
      rfl

theorem splitNl_ne_nil : ∀ l : List Char, splitNlL l ≠ []
  | [] => by simp [splitNlL]
  | '\n' :: rest => by simp [splitNlL]
  | c :: rest => by
    rw [splitNlL.eq_def]
    split
    · simp
    · simp
    · split <;> simp

theorem angleFollowOk_eq_cons (t : List Char) : angleFollowOk ('=' :: t) = true := by
  match t with
  | [] => rfl
  | d :: r => simp [angleFollowOk]

theorem splitNl_nl (r : List Char) : splitNlL ('\n' :: r) = [] :: splitNlL r := by
  rfl

theorem splitNl_cons_ne {c : Char} (r : List Char) (hc : ¬ c = '\n') :
    ∃ l ls, splitNlL r = l :: ls ∧ splitNlL (c :: r) = (c :: l) :: ls := by
  obtain ⟨l, ls, hr⟩ : ∃ l ls, splitNlL r = l :: ls := by
    match h : splitNlL r with
    | [] => exact absurd h (splitNl_ne_nil r)
    | l :: ls => exact ⟨l, ls, rfl⟩
  refine ⟨l, ls, hr, ?_⟩
  rw [splitNlL.eq_def]
  split
  · simp_all
  · rename_i heq; rw [List.cons.injEq] at heq; exact absurd heq.1 hc
  · rename_i c2 r2 hne heq
    rw [List.cons.injEq] at heq
    obtain ⟨hc2, hr2⟩ := heq
    subst hc2 hr2
    rw [hr]

theorem angleFollowOk_splitNl_head : ∀ {s l : List Char} {ls : List (List Char)},
    angleFollowOk s = true → splitNlL s = l :: ls → angleFollowOk l = true := by
  intro s l ls h hs
  match s, h with
  | [c], h =>
    rw [angleFollowOk, beq_iff_eq] at h
    subst h
    obtain ⟨l2, ls2, h1, h2⟩ := @splitNl_cons_ne '=' [] (by decide)
    simp [splitNlL] at h1
    rw [h2] at hs
    rw [List.cons.injEq] at hs
    rw [← hs.1, h1.1]
    exact angleFollowOk_eq_cons _
  | c :: d :: r, h =>
    rw [angleFollowOk, Bool.or_eq_true] at h
    rcases h with h1 | h1
    · rw [beq_iff_eq] at h1
      subst h1
      obtain ⟨l2, ls2, _, h2⟩ := @splitNl_cons_ne '=' (d :: r) (by decide)
      rw [h2] at hs
      rw [List.cons.injEq] at hs
      rw [← hs.1]
      exact angleFollowOk_eq_cons _
    · rw [Bool.and_eq_true, beq_iff_eq] at h1
      obtain ⟨hc, hd⟩ := h1
      subst hc
      have hdn : ¬ d = '\n' := by
        intro hdd
        rw [hdd] at hd
        simp [isWsChar] at hd
      obtain ⟨l3, ls3, h3, h4⟩ := @splitNl_cons_ne ' ' (d :: r) (by decide)
      obtain ⟨l4, ls4, _, h6⟩ := splitNl_cons_ne r hdn
      rw [h6] at h3
      rw [List.cons.injEq] at h3
      rw [h4] at hs
      rw [List.cons.injEq] at hs
      rw [← hs.1, ← h3.1]
      simp [angleFollowOk, hd]

theorem angleOk_splitNl : ∀ {s : List Char}, angleOkL s = true →
    ∀ p ∈ splitNlL s, angleOkL p = true := by
  intro s
  induction s with
  | nil =>
    intro _ p hp
    simp [splitNlL] at hp
    rw [hp]
    rfl
  | cons c r ih =>
    intro h p hp
    rw [angleOkL, Bool.and_eq_true] at h
    by_cases hc : c = '\n'
    · subst hc
      rw [splitNl_nl] at hp
      rcases List.mem_cons.mp hp with h1 | h1
      · rw [h1]; rfl
      · exact ih h.2 p h1
    · obtain ⟨l, ls, h1, h2⟩ := splitNl_cons_ne r hc
      rw [h2] at hp
      rcases List.mem_cons.mp hp with h3 | h3
      · subst h3
        rw [angleOkL, Bool.and_eq_true]
        have hl : angleOkL l = true := ih h.2 l (by rw [h1]; exact List.mem_cons_self _ _)
        refine ⟨?_, hl⟩
        by_cases hang : (c == '<' || c == '>') = true
        · rw [if_pos hang]
          have hf : angleFollowOk r = true := by
            have := h.1
            rwa [if_pos hang] at this
          exact angleFollowOk_splitNl_head hf h1
        · rw [if_neg (by simpa using hang)]
      · exact ih h.2 p (by rw [h1]; exact List.mem_cons_of_mem _ h3)

theorem mem_splitNl : ∀ {s : List Char} {p : List Char} {c : Char},
    p ∈ splitNlL s → c ∈ p → c ∈ s := by
  intro s
  induction s with
  | nil =>
    intro p c hp hc
    simp [splitNlL] at hp
    rw [hp] at hc
    exact absurd hc (List.not_mem_nil c)
  | cons a r ih =>
    intro p c hp hc
    by_cases ha : a = '\n'
    · subst ha
      rw [splitNl_nl] at hp
      rcases List.mem_cons.mp hp with h1 | h1
      · rw [h1] at hc; exact absurd hc (List.not_mem_nil c)
      · exact List.mem_cons_of_mem _ (ih h1 hc)
    · obtain ⟨l, ls, h1, h2⟩ := splitNl_cons_ne r ha
      rw [h2] at hp
      rcases List.mem_cons.mp hp with h3 | h3
      · subst h3
        rcases List.mem_cons.mp hc with h4 | h4
        · rw [h4]; exact List.mem_cons_self _ _
        · exact List.mem_cons_of_mem _ (ih (by rw [h1]; exact List.mem_cons_self _ _) h4)
      · exact List.mem_cons_of_mem _ (ih (by rw [h1]; exact List.mem_cons_of_mem _ h3) hc)

theorem angleOk_joinNl : ∀ {ls : List (List Char)},
    (∀ p ∈ ls, angleOkL p = true) → angleOkL (joinNlL ls) = true := by
  intro ls
  induction ls with
  | nil => intro _; rfl
  | cons l ls ih =>
    intro h
    match ls with
    | [] => exact h l (List.mem_cons_self _ _)
    | l2 :: ls2 =>
      show angleOkL (l ++ '\n' :: joinNlL (l2 :: ls2)) = true
      refine angleOk_append (h l (List.mem_cons_self _ _)) ?_
      rw [angleOkL, Bool.and_eq_true]
      refine ⟨by rfl, ?_⟩
      exact ih (fun p hp => h p (List.mem_cons_of_mem _ hp))

theorem mem_joinNl : ∀ {ls : List (List Char)} {c : Char},
    c ∈ joinNlL ls → c = '\n' ∨ ∃ p ∈ ls, c ∈ p := by
  intro ls
  induction ls with
  | nil => intro c hc; exact absurd hc (List.not_mem_nil c)
  | cons l ls ih =>
    intro c hc
    match ls with
    | [] => exact Or.inr ⟨l, List.mem_cons_self _ _, hc⟩
    | l2 :: ls2 =>
      have hc2 : c ∈ l ++ '\n' :: joinNlL (l2 :: ls2) := hc
      rcases List.mem_append.mp hc2 with h1 | h1
      · exact Or.inr ⟨l, List.mem_cons_self _ _, h1⟩
      · rcases List.mem_cons.mp h1 with h2 | h2
        · exact Or.inl h2
        · rcases ih h2 with h3 | ⟨p, hp, hcp⟩
          · exact Or.inl h3
          · exact Or.inr ⟨p, List.mem_cons_of_mem _ hp, hcp⟩

theorem rstripWs_cons_nonws {c : Char} (r : List Char) (hc : isWsChar c = false) :
    rstripWsL (c :: r) = c :: rstripWsL r := by
  rw [rstripWsL]
  match h : rstripWsL r with
  | [] => simp [hc]
  | x :: xs => rfl

theorem rstripWs_cons_ne_nil {c : Char} (r : List Char) (hc : isWsChar c = false) :
    rstripWsL (c :: r) ≠ [] := by
  rw [rstripWs_cons_nonws r hc]
  simp

theorem angleFollowOk_rstripWs : ∀ {l : List Char},
    angleFollowOk l = true → angleFollowOk (rstripWsL l) = true := by
  intro l h
  match l with
  | [c] =>
    rw [angleFollowOk, beq_iff_eq] at h
    subst h
    rw [rstripWs_cons_nonws [] (by decide)]
    exact angleFollowOk_eq_cons _
  | c :: d :: r =>
    rw [angleFollowOk, Bool.or_eq_true] at h
    rcases h with h1 | h1
    · rw [beq_iff_eq] at h1
      subst h1
      rw [rstripWs_cons_nonws (d :: r) (by decide)]
      exact angleFollowOk_eq_cons _
    · rw [Bool.and_eq_true, beq_iff_eq] at h1
      obtain ⟨hc, hd⟩ := h1
      subst hc
      have hdw : isWsChar d = false := by simpa using hd
      have hin : rstripWsL (d :: r) = d :: rstripWsL r := rstripWs_cons_nonws r hdw
      rw [rstripWsL, hin]
      simp [angleFollowOk, hd]

theorem angleFollowOk_rstripWs_ne_nil : ∀ {l : List Char},
    angleFollowOk l = true → rstripWsL l ≠ [] := by
  intro l h
  match l with
  | [c] =>
    rw [angleFollowOk, beq_iff_eq] at h
    subst h
    exact rstripWs_cons_ne_nil [] (by decide)
  | c :: d :: r =>
    rw [angleFollowOk, Bool.or_eq_true] at h
    rcases h with h1 | h1
    · rw [beq_iff_eq] at h1
      subst h1
      exact rstripWs_cons_ne_nil (d :: r) (by decide)
    · rw [Bool.and_eq_true, beq_iff_eq] at h1
      obtain ⟨hc, hd⟩ := h1
      subst hc
      have hdw : isWsChar d = false := by simpa using hd
      have hin : rstripWsL (d :: r) = d :: rstripWsL r := rstripWs_cons_nonws r hdw
      rw [rstripWsL, hin]
      simp

theorem angleOk_rstripWs : ∀ {l : List Char},
    angleOkL l = true → angleOkL (rstripWsL l) = true := by
  intro l
  induction l with
  | nil => intro _; rfl
  | cons c r ih =>
    intro h
    rw [angleOkL, Bool.and_eq_true] at h
    match hr : rstripWsL r with
    | [] =>
      rw [rstripWsL, hr]
      by_cases hw : isWsChar c = true
      · rw [if_pos hw]; rfl
      · rw [if_neg (by simpa using hw)]
        rw [angleOkL, Bool.and_eq_true]
        refine ⟨?_, rfl⟩
        by_cases hang : (c == '<' || c == '>') = true
        · exfalso
          have hf : angleFollowOk r = true := by
            have := h.1
            rwa [if_pos hang] at this
          exact angleFollowOk_rstripWs_ne_nil hf hr
        · rw [if_neg (by simpa using hang)]
    | x :: xs =>
      rw [rstripWsL, hr]
      rw [angleOkL, Bool.and_eq_true]
      have hok : angleOkL (x :: xs) = true := by rw [← hr]; exact ih h.2
      refine ⟨?_, hok⟩
      by_cases hang : (c == '<' || c == '>') = true
      · rw [if_pos hang]
        have hf : angleFollowOk r = true := by
          have := h.1
          rwa [if_pos hang] at this
        rw [← hr]
        exact angleFollowOk_rstripWs hf
      · rw [if_neg (by simpa using hang)]

theorem mem_rstripWs : ∀ {l : List Char} {c : Char}, c ∈ rstripWsL l → c ∈ l := by
  intro l
  induction l with
  | nil => intro c hc; exact absurd hc (List.not_mem_nil c)
  | cons a r ih =>
    intro c hc
    rw [rstripWsL] at hc
    revert hc
    match hr : rstripWsL r with
    | [] =>
      intro hc
      by_cases hw : isWsChar a = true
      · rw [if_pos hw] at hc
        exact absurd hc (List.not_mem_nil c)
      · rw [if_neg hw] at hc
        rcases List.mem_cons.mp hc with h1 | h1
        · rw [h1]; exact List.mem_cons_self _ _
        · exact absurd h1 (List.not_mem_nil c)
    | x :: xs =>
      intro hc
      rcases List.mem_cons.mp hc with h1 | h1
      · rw [h1]; exact List.mem_cons_self _ _
      · exact List.mem_cons_of_mem _ (ih (by rw [hr]; exact h1))

theorem rstripNl_cons_ne {c : Char} (r : List Char) (hc : ¬ c = '\n') :
    rstripNlL (c :: r) = c :: rstripNlL r := by
  rw [rstripNlL]
  match h : rstripNlL r with
  | [] => simp [hc]
  | x :: xs => rfl

theorem angleFollowOk_rstripNl : ∀ {l : List Char},
    angleFollowOk l = true → angleFollowOk (rstripNlL l) = true := by
  intro l h
  match l with
  | [c] =>
    rw [angleFollowOk, beq_iff_eq] at h
    subst h
    rw [rstripNl_cons_ne [] (by decide)]
    exact angleFollowOk_eq_cons _
  | c :: d :: r =>
    rw [angleFollowOk, Bool.or_eq_true] at h
    rcases h with h1 | h1
    · rw [beq_iff_eq] at h1
      subst h1
      rw [rstripNl_cons_ne (d :: r) (by decide)]
      exact angleFollowOk_eq_cons _
    · rw [Bool.and_eq_true, beq_iff_eq] at h1
      obtain ⟨hc, hd⟩ := h1
      subst hc
      have hdn : ¬ d = '\n' := by
        intro hdd
        rw [hdd] at hd
        simp [isWsChar] at hd
      have hin : rstripNlL (d :: r) = d :: rstripNlL r := rstripNl_cons_ne r hdn
      rw [rstripNl_cons_ne (d :: r) (by decide), hin]
      simp [angleFollowOk, hd]

theorem angleFollowOk_rstripNl_ne_nil : ∀ {l : List Char},
    angleFollowOk l = true → rstripNlL l ≠ [] := by
  intro l h
  match l with
  | [c] =>
    rw [angleFollowOk, beq_iff_eq] at h
    subst h
    rw [rstripNl_cons_ne [] (by decide)]
    simp
  | c :: d :: r =>
    rw [angleFollowOk, Bool.or_eq_true] at h
    rcases h with h1 | h1
    · rw [beq_iff_eq] at h1
      subst h1
      rw [rstripNl_cons_ne (d :: r) (by decide)]
      simp
    · rw [Bool.and_eq_true, beq_iff_eq] at h1
      obtain ⟨hc, _⟩ := h1
      subst hc
      rw [rstripNl_cons_ne (d :: r) (by decide)]
      simp

theorem angleOk_rstripNl : ∀ {l : List Char},
    angleOkL l = true → angleOkL (rstripNlL l) = true := by
  intro l
  induction l with
  | nil => intro _; rfl
  | cons c r ih =>
    intro h
    rw [angleOkL, Bool.and_eq_true] at h
    match hr : rstripNlL r with
    | [] =>
      rw [rstripNlL, hr]
      by_cases hn : c = '\n'
      · rw [if_pos hn]; rfl
      · rw [if_neg hn]
        rw [angleOkL, Bool.and_eq_true]
        refine ⟨?_, rfl⟩
        by_cases hang : (c == '<' || c == '>') = true
        · exfalso
          have hf : angleFollowOk r = true := by
            have := h.1
            rwa [if_pos hang] at this
          exact angleFollowOk_rstripNl_ne_nil hf hr
        · rw [if_neg (by simpa using hang)]
    | x :: xs =>
      rw [rstripNlL, hr]
      rw [angleOkL, Bool.and_eq_true]
      have hok : angleOkL (x :: xs) = true := by rw [← hr]; exact ih h.2
      refine ⟨?_, hok⟩
      by_cases hang : (c == '<' || c == '>') = true
      · rw [if_pos hang]
        have hf : angleFollowOk r = true := by
          have := h.1
          rwa [if_pos hang] at this
        rw [← hr]
        exact angleFollowOk_rstripNl hf
      · rw [if_neg (by simpa using hang)]

theorem mem_rstripNl : ∀ {l : List Char} {c : Char}, c ∈ rstripNlL l → c ∈ l := by
  intro l
  induction l with
  | nil => intro c hc; exact absurd hc (List.not_mem_nil c)
  | cons a r ih =>
    intro c hc
    rw [rstripNlL] at hc
    revert hc
    match hr : rstripNlL r with
    | [] =>
      intro hc
      by_cases hn : a = '\n'
      · rw [if_pos hn] at hc
        exact absurd hc (List.not_mem_nil c)
      · rw [if_neg hn] at hc
        rcases List.mem_cons.mp hc with h1 | h1
        · rw [h1]; exact List.mem_cons_self _ _
        · exact absurd h1 (List.not_mem_nil c)
    | x :: xs =>
      intro hc
      rcases List.mem_cons.mp hc with h1 | h1
      · rw [h1]; exact List.mem_cons_self _ _
      · exact List.mem_cons_of_mem _ (ih (by rw [hr]; exact h1))

theorem strData_append (a b : String) : (a ++ b).data = a.data ++ b.data := rfl

theorem emitOk_append {a b : String} (ha : emitOk a) (hb : emitOk b) : emitOk (a ++ b) := by
  obtain ⟨ha1, ha2, ha3⟩ := ha
  obtain ⟨hb1, hb2, hb3⟩ := hb
  refine ⟨?_, ?_, ?_⟩
  · rw [strData_append]; exact angleOk_append ha1 hb1
  · rw [strData_append]
    intro hmem
    rcases List.mem_append.mp hmem with h | h
    · exact ha2 h
    · exact hb2 h
  · rw [strData_append]
    intro hmem
    rcases List.mem_append.mp hmem with h | h
    · exact ha3 h
    · exact hb3 h

theorem angleOk_cons_nonangle {c : Char} (hc : (c == '<' || c == '>') = false)
    (r : List Char) : angleOkL (c :: r) = angleOkL r := by
  rw [angleOkL, if_neg (by rw [hc]; exact Bool.false_ne_true), Bool.true_and]

theorem angleOk_indentLine {p : List Char} (h : angleOkL p = true) :
    angleOkL (indentLineL p) = true := by
  rw [indentLineL]
  split
  · rfl
  · rw [angleOk_cons_nonangle (by decide), angleOk_cons_nonangle (by decide),
      angleOk_cons_nonangle (by decide), angleOk_cons_nonangle (by decide)]
    exact h

theorem mem_indentLine {p : List Char} {c : Char} (h : c ∈ indentLineL p) :
    c = ' ' ∨ c ∈ p := by
  rw [indentLineL] at h
  revert h
  split
  · intro h; exact absurd h (List.not_mem_nil c)
  · intro h
    rcases List.mem_cons.mp h with h1 | h1
    · exact Or.inl h1
    · rcases List.mem_cons.mp h1 with h2 | h2
      · exact Or.inl h2
      · rcases List.mem_cons.mp h2 with h3 | h3
        · exact Or.inl h3
        · rcases List.mem_cons.mp h3 with h4 | h4
          · exact Or.inl h4
          · exact Or.inr h4

theorem emitOk_compoundIndent {s : String} (h : emitOk s) : emitOk (compoundIndent s) := by
  obtain ⟨h1, h2, h3⟩ := h
  have key : ∀ p ∈ (splitNlL s.data).map indentLineL, angleOkL p = true := by
    intro p hp
    rw [List.mem_map] at hp
    obtain ⟨q, hq, hpq⟩ := hp
    rw [← hpq]
    exact angleOk_indentLine (angleOk_splitNl h1 q hq)
  have memkey : ∀ {c : Char},
      c ∈ rstripWsL (joinNlL ((splitNlL s.data).map indentLineL)) → c ∈ s.data ∨ c = ' ' ∨ c = '\n' := by
    intro c hc
    have hc2 := mem_rstripWs hc
    rcases mem_joinNl hc2 with h4 | ⟨p, hp, hcp⟩
    · exact Or.inr (Or.inr h4)
    · rw [List.mem_map] at hp
      obtain ⟨q, hq, hpq⟩ := hp
      rw [← hpq] at hcp
      rcases mem_indentLine hcp with h5 | h5
      · exact Or.inr (Or.inl h5)
      · exact Or.inl (mem_splitNl hq h5)
  refine ⟨?_, ?_, ?_⟩
  · show angleOkL (rstripWsL (joinNlL ((splitNlL s.data).map indentLineL)) ++ ['\n']) = true
    exact angleOk_append (angleOk_rstripWs (angleOk_joinNl key)) (by decide)
  · show ('\x7b' : Char) ∉ rstripWsL (joinNlL ((splitNlL s.data).map indentLineL)) ++ ['\n']
    intro hmem
    rcases List.mem_append.mp hmem with hm | hm
    · rcases memkey hm with h4 | h4 | h4
      · exact h2 h4
      · exact absurd h4 (by decide)
      · exact absurd h4 (by decide)
    · revert hm; decide
  · show ('\x7d' : Char) ∉ rstripWsL (joinNlL ((splitNlL s.data).map indentLineL)) ++ ['\n']
    intro hmem
    rcases List.mem_append.mp hmem with hm | hm
    · rcases memkey hm with h4 | h4 | h4
      · exact h3 h4
      · exact absurd h4 (by decide)
      · exact absurd h4 (by decide)
    · revert hm; decide

theorem emitOk_indent {s : String} (h : emitOk s) : emitOk (indent s) := by
  obtain ⟨h1, h2, h3⟩ := h
  have key : ∀ p ∈ (splitNlL (rstripNlL s.data)).map indentLineL, angleOkL p = true := by
    intro p hp
    rw [List.mem_map] at hp
    obtain ⟨q, hq, hpq⟩ := hp
    rw [← hpq]
    exact angleOk_indentLine (angleOk_splitNl (angleOk_rstripNl h1) q hq)
  have memkey : ∀ {c : Char},
      c ∈ joinNlL ((splitNlL (rstripNlL s.data)).map indentLineL) → c ∈ s.data ∨ c = ' ' ∨ c = '\n' := by
    intro c hc
    rcases mem_joinNl hc with h4 | ⟨p, hp, hcp⟩
    · exact Or.inr (Or.inr h4)
    · rw [List.mem_map] at hp
      obtain ⟨q, hq, hpq⟩ := hp
      rw [← hpq] at hcp
      rcases mem_indentLine hcp with h5 | h5
      · exact Or.inr (Or.inl h5)
      · exact Or.inl (mem_rstripNl (mem_splitNl hq h5))
  refine ⟨?_, ?_, ?_⟩
  · show angleOkL (joinNlL ((splitNlL (rstripNlL s.data)).map indentLineL) ++ ['\n']) = true
    exact angleOk_append (angleOk_joinNl key) (by decide)
  · show ('\x7b' : Char) ∉ joinNlL ((splitNlL (rstripNlL s.data)).map indentLineL) ++ ['\n']
    intro hmem
    rcases List.mem_append.mp hmem with hm | hm
    · rcases memkey hm with h4 | h4 | h4
      · exact h2 h4
      · exact absurd h4 (by decide)
      · exact absurd h4 (by decide)
    · revert hm; decide
  · show ('\x7d' : Char) ∉ joinNlL ((splitNlL (rstripNlL s.data)).map indentLineL) ++ ['\n']
    intro hmem
    rcases List.mem_append.mp hmem with hm | hm
    · rcases memkey hm with h4 | h4 | h4
      · exact h3 h4
      · exact absurd h4 (by decide)
      · exact absurd h4 (by decide)
    · revert hm; decide

theorem angleOk_of_no_angle : ∀ {l : List Char},
    (∀ c ∈ l, (c == '<' || c == '>') = false) → angleOkL l = true := by
  intro l
  induction l with
  | nil => intro _; rfl
  | cons c r ih =>
    intro h
    rw [angleOk_cons_nonangle (h c (List.mem_cons_self _ _))]
    exact ih fun d hd => h d (List.mem_cons_of_mem _ hd)

theorem headNonWs_append {a : List Char} (b : List Char) (h : headNonWs a = true) :
    headNonWs (a ++ b) = true := by
  match a, h with
  | c :: r, h => exact h

theorem cleanPayload_emitOk {s : String} (h : cleanPayloadB s = true) :
    emitOk s ∧ headNonWs s.data = true := by
  rw [cleanPayloadB, Bool.and_eq_true, List.all_eq_true] at h
  refine ⟨⟨?_, ?_, ?_⟩, h.1⟩
  · refine angleOk_of_no_angle fun c hc => ?_
    have := h.2 c hc
    rw [Bool.not_eq_true'] at this
    rcases Bool.or_eq_false_iff.mp this with ⟨h1, _⟩
    rcases Bool.or_eq_false_iff.mp h1 with ⟨h2, _⟩
    exact h2
  · intro hc
    have := h.2 _ hc
    simp at this
  · intro hc
    have := h.2 _ hc
    simp at this

theorem angleOk_spacedOp (op : BinOp) {r : List Char} (hr : angleOkL r = true)
    (hh : headNonWs r = true) :
    angleOkL (' ' :: ((opStr op).data ++ ' ' :: r)) = true := by
  match r, hh with
  | rc :: rr, hh =>
    have hw : isWsChar rc = false := by
      rw [headNonWs] at hh
      simpa using hh
    have hsp : ∀ x : List Char, angleOkL (' ' :: x) = angleOkL x :=
      fun x => angleOk_cons_nonangle (by decide) x
    have heq : ∀ x : List Char, angleOkL ('=' :: x) = angleOkL x :=
      fun x => angleOk_cons_nonangle (by decide) x
    have hfollow : angleFollowOk (' ' :: rc :: rr) = true := by
      simp [angleFollowOk, hw]
    have hfolloweq : ∀ x : List Char, angleFollowOk ('=' :: x) = true :=
      angleFollowOk_eq_cons
    cases op
    case plus =>
      show angleOkL (' ' :: '+' :: ' ' :: rc :: rr) = true
      rw [hsp, angleOk_cons_nonangle (by decide), hsp]
      exact hr
    case minus =>
      show angleOkL (' ' :: '-' :: ' ' :: rc :: rr) = true
      rw [hsp, angleOk_cons_nonangle (by decide), hsp]
      exact hr
    case times =>
      show angleOkL (' ' :: '*' :: ' ' :: rc :: rr) = true
      rw [hsp, angleOk_cons_nonangle (by decide), hsp]
      exact hr
    case divide =>
      show angleOkL (' ' :: '/' :: ' ' :: rc :: rr) = true
      rw [hsp, angleOk_cons_nonangle (by decide), hsp]
      exact hr
    case lt =>
      show angleOkL (' ' :: '<' :: ' ' :: rc :: rr) = true
      rw [hsp, angleOkL, if_pos (by decide), hfollow, hsp, Bool.true_and]
      exact hr
    case gt =>
      show angleOkL (' ' :: '>' :: ' ' :: rc :: rr) = true
      rw [hsp, angleOkL, if_pos (by decide), hfollow, hsp, Bool.true_and]
      exact hr
    case le =>
      show angleOkL (' ' :: '<' :: '=' :: ' ' :: rc :: rr) = true
      rw [hsp, angleOkL, if_pos (by decide), hfolloweq, heq, hsp, Bool.true_and]
      exact hr
    case ge =>
      show angleOkL (' ' :: '>' :: '=' :: ' ' :: rc :: rr) = true
      rw [hsp, angleOkL, if_pos (by decide), hfolloweq, heq, hsp, Bool.true_and]
      exact hr

theorem opStr_no_brace (op : BinOp) :
    ('\x7b' ∉ (opStr op).data) ∧ ('\x7d' ∉ (opStr op).data) := by
  cases op <;> exact ⟨by decide, by decide⟩

theorem spData : (" " : String).data = [' '] := rfl

theorem transExpr_inv : ∀ e : Expr, cleanExpr e = true →
    emitOk (transExpr e) ∧ headNonWs (transExpr e).data = true := by
  intro e
  induction e with
  | ident s => intro h; exact cleanPayload_emitOk h
  | num s => intro h; exact cleanPayload_emitOk h
  | strlit s => intro h; exact cleanPayload_emitOk h
  | paren e ih =>
    intro h
    rw [cleanExpr] at h
    obtain ⟨⟨ih1, ih2, ih3⟩, _⟩ := ih h
    have hlp : emitOk ("(") := ⟨by decide, by decide, by decide⟩
    have hrp : emitOk (")") := ⟨by decide, by decide, by decide⟩
    refine ⟨emitOk_append (emitOk_append hlp ⟨ih1, ih2, ih3⟩) hrp, ?_⟩
    show headNonWs (("(" ++ transExpr e ++ ")").data) = true
    rw [strData_append, strData_append]
    exact headNonWs_append _ (headNonWs_append _ (by decide))
  | bin op l r ihl ihr =>
    intro h
    rw [cleanExpr, Bool.and_eq_true] at h
    obtain ⟨⟨hl1, hl2, hl3⟩, hlh⟩ := ihl h.1
    obtain ⟨⟨hr1, hr2, hr3⟩, hrh⟩ := ihr h.2
    have hd : (transExpr (.bin op l r)).data =
        (transExpr l).data ++ ' ' :: ((opStr op).data ++ ' ' :: (transExpr r).data) := by
      show (transExpr l ++ " " ++ opStr op ++ " " ++ transExpr r).data = _
      rw [strData_append, strData_append, strData_append, strData_append, spData]
      simp only [List.append_assoc, List.singleton_append, List.cons_append, List.nil_append]
    refine ⟨⟨?_, ?_, ?_⟩, ?_⟩
    · rw [hd]
      exact angleOk_append hl1 (angleOk_spacedOp op hr1 hrh)
    · rw [hd]
      intro hc
      rcases List.mem_append.mp hc with h1 | h1
      · exact hl2 h1
      · rcases List.mem_cons.mp h1 with h2 | h2
        · exact absurd h2 (by decide)
        · rcases List.mem_append.mp h2 with h3 | h3
          · exact (opStr_no_brace op).1 h3
          · rcases List.mem_cons.mp h3 with h4 | h4
            · exact absurd h4 (by decide)
            · exact hr2 h4
    · rw [hd]
      intro hc
      rcases List.mem_append.mp hc with h1 | h1
      · exact hl3 h1
      · rcases List.mem_cons.mp h1 with h2 | h2
        · exact absurd h2 (by decide)
        · rcases List.mem_append.mp h2 with h3 | h3
          · exact (opStr_no_brace op).2 h3
          · rcases List.mem_cons.mp h3 with h4 | h4
            · exact absurd h4 (by decide)
            · exact hr3 h4
    · rw [hd]
      exact headNonWs_append _ hlh

theorem emitOk_empty : emitOk ("") := ⟨rfl, by decide, by decide⟩

theorem ctypeStr_emitOk (ty : CType) : emitOk (ctypeStr ty) := by
  cases ty <;> exact ⟨by decide, by decide, by decide⟩

theorem coutFold_emitOk : ∀ (es : List Expr) (acc : String), emitOk acc →
    (∀ x ∈ es, cleanExpr x = true) →
    emitOk (es.foldl (fun a x => a ++ ", " ++ transExpr x) acc) := by
  intro es
  induction es with
  | nil => intro acc hacc _; simpa using hacc
  | cons x xs ih =>
    intro acc hacc h
    rw [List.foldl_cons]
    exact ih _ (emitOk_append (emitOk_append hacc ⟨by decide, by decide, by decide⟩)
        (transExpr_inv x (h x (List.mem_cons_self _ _))).1)
      (fun y hy => h y (List.mem_cons_of_mem _ hy))

theorem transCoutArgs_inv {args : List Expr} (h : ∀ e ∈ args, cleanExpr e = true) :
    emitOk (transCoutArgs args) := by
  match args with
  | [] => exact emitOk_empty
  | e :: es =>
    rw [transCoutArgs]
    exact coutFold_emitOk es _ (transExpr_inv e (h e (List.mem_cons_self _ _))).1
      fun x hx => h x (List.mem_cons_of_mem _ hx)

theorem transCinArgs_inv {names : List String} (h : ∀ n ∈ names, cleanPayloadB n = true) :
    emitOk (transCinArgs names) := by
  induction names with
  | nil => exact emitOk_empty
  | cons n rest ih =>
    rw [transCinArgs]
    exact emitOk_append
      (emitOk_append (cleanPayload_emitOk (h n (List.mem_cons_self _ _))).1
        ⟨by decide, by decide, by decide⟩)
      (ih fun x hx => h x (List.mem_cons_of_mem _ hx))

theorem transParams_inv : ∀ {ps : List (CType × String)},
    (∀ p ∈ ps, cleanPayloadB p.2 = true) → emitOk (transParams ps) := by
  intro ps
  induction ps with
  | nil => intro _; exact emitOk_empty
  | cons p rest ih =>
    intro h
    match p, rest with
    | (ty, n), [] =>
      exact (cleanPayload_emitOk (h (ty, n) (List.mem_cons_self _ _))).1
    | (ty, n), q :: qs =>
      show emitOk (n ++ ", " ++ transParams (q :: qs))
      exact emitOk_append
        (emitOk_append (cleanPayload_emitOk (h (ty, n) (List.mem_cons_self _ _))).1
          ⟨by decide, by decide, by decide⟩)
        (ih fun x hx => h x (List.mem_cons_of_mem _ hx))

theorem transArgs_inv : ∀ {args : List Expr},
    (∀ e ∈ args, cleanExpr e = true) → emitOk (transArgs args) := by
  intro args
  induction args with
  | nil => intro _; exact emitOk_empty
  | cons e rest ih =>
    intro h
    match rest with
    | [] => exact (transExpr_inv e (h e (List.mem_cons_self _ _))).1
    | q :: qs =>
      show emitOk (transExpr e ++ ", " ++ transArgs (q :: qs))
      exact emitOk_append
        (emitOk_append (transExpr_inv e (h e (List.mem_cons_self _ _))).1
          ⟨by decide, by decide, by decide⟩)
        (ih fun x hx => h x (List.mem_cons_of_mem _ hx))

theorem declLineStr_emitOk {ty n : String} {v : Option String}
    (hty : emitOk ty) (hn : emitOk n)
    (hv : ∀ s, v = some s → emitOk s) :
    emitOk (declLineStr ty n v) := by
  have he1 : emitOk (" = None  # ") := ⟨by decide, by decide, by decide⟩
  have he2 : emitOk (" = ") := ⟨by decide, by decide, by decide⟩
  have he3 : emitOk ("  # ") := ⟨by decide, by decide, by decide⟩
  have he4 : emitOk (" in C++") := ⟨by decide, by decide, by decide⟩
  match v with
  | none =>
    show emitOk (n ++ " = None  # " ++ ty ++ " in C++")
    exact emitOk_append (emitOk_append (emitOk_append hn he1) hty) he4
  | some s =>
    show emitOk (n ++ " = " ++ s ++ "  # " ++ ty ++ " in C++")
    exact emitOk_append
      (emitOk_append (emitOk_append (emitOk_append (emitOk_append hn he2) (hv s rfl)) he3)
        hty) he4

theorem declStr_emitOk {ty : String} {ds : List (String × Option String)}
    (h : ∀ d ∈ ds, emitOk (declLineStr ty d.1 d.2)) : emitOk (declStr ty ds) := by
  have key : ∀ p ∈ (ds.map fun d => declLineStr ty d.1 d.2).map String.data,
      angleOkL p = true := by
    intro p hp
    rw [List.mem_map] at hp
    obtain ⟨q, hq, hpq⟩ := hp
    rw [List.mem_map] at hq
    obtain ⟨d, hd, hqd⟩ := hq
    rw [← hpq, ← hqd]
    exact (h d hd).1
  have memkey : ∀ {c : Char},
      c ∈ joinNlL ((ds.map fun d => declLineStr ty d.1 d.2).map String.data) →
      c = '\n' ∨ ∃ d ∈ ds, c ∈ (declLineStr ty d.1 d.2).data := by
    intro c hc
    rcases mem_joinNl hc with h1 | ⟨p, hp, hcp⟩
    · exact Or.inl h1
    · rw [List.mem_map] at hp
      obtain ⟨q, hq, hpq⟩ := hp
      rw [List.mem_map] at hq
      obtain ⟨d, hd, hqd⟩ := hq
      rw [← hpq, ← hqd] at hcp
      exact Or.inr ⟨d, hd, hcp⟩
  refine ⟨?_, ?_, ?_⟩
  · show angleOkL (joinNlL ((ds.map fun d => declLineStr ty d.1 d.2).map String.data)
        ++ ['\n']) = true
    exact angleOk_append (angleOk_joinNl key) (by decide)
  · show ('\x7b' : Char) ∉
      joinNlL ((ds.map fun d => declLineStr ty d.1 d.2).map String.data) ++ ['\n']
    intro hmem
    rcases List.mem_append.mp hmem with hm | hm
    · rcases memkey hm with h1 | ⟨d, hd, hcd⟩
      · exact absurd h1 (by decide)
      · exact (h d hd).2.1 hcd
    · revert hm; decide
  · show ('\x7d' : Char) ∉
      joinNlL ((ds.map fun d => declLineStr ty d.1 d.2).map String.data) ++ ['\n']
    intro hmem
    rcases List.mem_append.mp hmem with hm | hm
    · rcases memkey hm with h1 | ⟨d, hd, hcd⟩
      · exact absurd h1 (by decide)
      · exact (h d hd).2.2 hcd
    · revert hm; decide

theorem transDecl_inv {ty : CType} {ds : List (String × Option Expr)}
    (h : cleanDecl ds = true) : emitOk (transDecl ty ds) := by
  rw [transDecl]
  rw [cleanDecl, List.all_eq_true] at h
  refine declStr_emitOk ?_
  intro d hd
  rw [List.mem_map] at hd
  obtain ⟨d0, hd0, hdd⟩ := hd
  obtain ⟨name0, v0⟩ := d0
  have hc := h (name0, v0) hd0
  rw [Bool.and_eq_true] at hc
  rw [← hdd]
  refine declLineStr_emitOk (ctypeStr_emitOk ty) (cleanPayload_emitOk hc.1).1 ?_
  intro s hs
  cases v0 with
  | none => exact absurd hs (by simp)
  | some e0 =>
    have hce : cleanExpr e0 = true := hc.2
    have hs2 : some (transExpr e0) = some s := hs
    rw [Option.some.injEq] at hs2
    rw [← hs2]
    exact (transExpr_inv e0 hce).1

mutual

theorem transStmt_inv : ∀ s : Stmt, cleanStmt s = true → emitOk (transStmt s)
  | .includeStmt, _ => ⟨by decide, by decide, by decide⟩
  | .usingNamespace, _ => ⟨by decide, by decide, by decide⟩
  | .decl ty ds, h => transDecl_inv (by rwa [cleanStmt] at h)
  | .assign name e, h => by
    rw [cleanStmt, Bool.and_eq_true] at h
    have he : emitOk (" = ") := ⟨by decide, by decide, by decide⟩
    have hnl : emitOk ("\n") := ⟨by decide, by decide, by decide⟩
    show emitOk (name ++ " = " ++ transExpr e ++ "\n")
    exact emitOk_append
      (emitOk_append (emitOk_append (cleanPayload_emitOk h.1).1 he)
        (transExpr_inv e h.2).1) hnl
  | .coutStmt args, h => by
    rw [cleanStmt, List.all_eq_true] at h
    have hp : emitOk ("print(") := ⟨by decide, by decide, by decide⟩
    have hc : emitOk (")\n") := ⟨by decide, by decide, by decide⟩
    show emitOk ("print(" ++ transCoutArgs args ++ ")\n")
    exact emitOk_append (emitOk_append hp (transCoutArgs_inv h)) hc
  | .cinStmt names, h => by
    rw [cleanStmt, List.all_eq_true] at h
    show emitOk (transCinArgs names)
    exact transCinArgs_inv h
  | .ifStmt c t, h => by
    rw [cleanStmt, Bool.and_eq_true] at h
    have hif : emitOk ("if ") := ⟨by decide, by decide, by decide⟩
    have hcol : emitOk (":\n") := ⟨by decide, by decide, by decide⟩
    show emitOk ("if " ++ transExpr c ++ ":\n" ++ compoundIndent (transStmts t))
    exact emitOk_append
      (emitOk_append (emitOk_append hif (transExpr_inv c h.1).1) hcol)
      (emitOk_compoundIndent (transStmts_inv t h.2))
  | .ifElse c t e, h => by
    rw [cleanStmt, Bool.and_eq_true, Bool.and_eq_true] at h
    have hif : emitOk ("if ") := ⟨by decide, by decide, by decide⟩
    have hcol : emitOk (":\n") := ⟨by decide, by decide, by decide⟩
    have hel : emitOk ("else:\n") := ⟨by decide, by decide, by decide⟩
    show emitOk ("if " ++ transExpr c ++ ":\n" ++ compoundIndent (transStmts t) ++
      "else:\n" ++ compoundIndent (transStmts e))
    exact emitOk_append
      (emitOk_append
        (emitOk_append
          (emitOk_append (emitOk_append hif (transExpr_inv c h.1.1).1) hcol)
          (emitOk_compoundIndent (transStmts_inv t h.1.2)))
        hel)
      (emitOk_compoundIndent (transStmts_inv e h.2))
  | .whileStmt c b, h => by
    rw [cleanStmt, Bool.and_eq_true] at h
    have hw : emitOk ("while ") := ⟨by decide, by decide, by decide⟩
    have hcol : emitOk (":\n") := ⟨by decide, by decide, by decide⟩
    show emitOk ("while " ++ transExpr c ++ ":\n" ++ compoundIndent (transStmts b))
    exact emitOk_append
      (emitOk_append (emitOk_append hw (transExpr_inv c h.1).1) hcol)
      (emitOk_compoundIndent (transStmts_inv b h.2))
  | .forExpr i c st b, h => by
    rw [cleanStmt, Bool.and_eq_true, Bool.and_eq_true, Bool.and_eq_true] at h
    have hnl : emitOk ("\n") := ⟨by decide, by decide, by decide⟩
    have hw : emitOk ("while ") := ⟨by decide, by decide, by decide⟩
    have hcol : emitOk (":\n") := ⟨by decide, by decide, by decide⟩
    show emitOk (transExpr i ++ "\n" ++ "while " ++ transExpr c ++ ":\n" ++
      indent (compoundIndent (transStmts b)) ++ indent (transExpr st) ++ "\n")
    exact emitOk_append
      (emitOk_append
        (emitOk_append
          (emitOk_append
            (emitOk_append
              (emitOk_append (emitOk_append (transExpr_inv i h.1.1.1).1 hnl) hw)
              (transExpr_inv c h.1.1.2).1)
            hcol)
          (emitOk_indent (emitOk_compoundIndent (transStmts_inv b h.2))))
        (emitOk_indent (transExpr_inv st h.1.2).1))
      hnl
  | .forDecl ty ds c st b, h => by
    rw [cleanStmt, Bool.and_eq_true, Bool.and_eq_true, Bool.and_eq_true] at h
    have hnl : emitOk ("\n") := ⟨by decide, by decide, by decide⟩
    have hw : emitOk ("while ") := ⟨by decide, by decide, by decide⟩
    have hcol : emitOk (":\n") := ⟨by decide, by decide, by decide⟩
    show emitOk (transDecl ty ds ++ "while " ++ transExpr c ++ ":\n" ++
      indent (compoundIndent (transStmts b)) ++ indent (transExpr st) ++ "\n")
    exact emitOk_append
      (emitOk_append
        (emitOk_append
          (emitOk_append
            (emitOk_append (emitOk_append (transDecl_inv h.1.1.1) hw)
              (transExpr_inv c h.1.1.2).1)
            hcol)
          (emitOk_indent (emitOk_compoundIndent (transStmts_inv b h.2))))
        (emitOk_indent (transExpr_inv st h.1.2).1))
      hnl
  | .funcDef ty name ps b, h => by
    rw [cleanStmt, Bool.and_eq_true, Bool.and_eq_true, List.all_eq_true] at h
    have hg : emitOk ("if __name__ == \"__main__\":\n") := ⟨by decide, by decide, by decide⟩
    have hd : emitOk ("def ") := ⟨by decide, by decide, by decide⟩
    have hop : emitOk ("(") := ⟨by decide, by decide, by decide⟩
    have hcl : emitOk ("):\n") := ⟨by decide, by decide, by decide⟩
    have hb := emitOk_compoundIndent (transStmts_inv b h.2)
    rw [transStmt]
    by_cases hm : name = "main"
    · rw [if_pos hm]
      exact emitOk_append hg hb
    · rw [if_neg hm]
      exact emitOk_append
        (emitOk_append
          (emitOk_append
            (emitOk_append (emitOk_append hd (cleanPayload_emitOk h.1.1).1) hop)
            (transParams_inv h.1.2))
          hcl)
        hb
  | .funcCall name args, h => by
    rw [cleanStmt, Bool.and_eq_true, List.all_eq_true] at h
    have hop : emitOk ("(") := ⟨by decide, by decide, by decide⟩
    have hcl : emitOk (")\n") := ⟨by decide, by decide, by decide⟩
    show emitOk (name ++ "(" ++ transArgs args ++ ")\n")
    exact emitOk_append
      (emitOk_append (emitOk_append (cleanPayload_emitOk h.1).1 hop)
        (transArgs_inv h.2))
      hcl
  | .ret e, h => by
    rw [cleanStmt] at h
    have hr : emitOk ("return ") := ⟨by decide, by decide, by decide⟩
    have hnl : emitOk ("\n") := ⟨by decide, by decide, by decide⟩
    show emitOk ("return " ++ transExpr e ++ "\n")
    exact emitOk_append (emitOk_append hr (transExpr_inv e h).1) hnl
  | .exprStmt e, h => by
    rw [cleanStmt] at h
    show emitOk (transExpr e)
    exact (transExpr_inv e h).1

theorem transStmts_inv : ∀ l : StmtList, cleanStmts l = true → emitOk (transStmts l)
  | .single s, h => by
    rw [cleanStmts] at h
    show emitOk (transStmt s)
    exact transStmt_inv s h
  | .cons s rest, h => by
    rw [cleanStmts, Bool.and_eq_true] at h
    show emitOk (transStmt s ++ transStmts rest)
    exact emitOk_append (transStmt_inv s h.1) (transStmts_inv rest h.2)

end

theorem splitNl_append_nl : ∀ {l : List Char}, '\n' ∉ l → ∀ rest : List Char,
    splitNlL (l ++ '\n' :: rest) = l :: splitNlL rest := by
  intro l
  induction l with
  | nil => intro _ rest; exact splitNl_nl rest
  | cons c r ih =>
    intro hl rest
    have hc : ¬ c = '\n' := fun h => hl (h ▸ List.mem_cons_self _ _)
    have hr : '\n' ∉ r := fun h => hl (List.mem_cons_of_mem _ h)
    obtain ⟨l2, ls2, h1, h2⟩ := splitNl_cons_ne (r ++ '\n' :: rest) hc
    rw [ih hr rest] at h1
    rw [List.cons.injEq] at h1
    rw [List.cons_append, h2, h1.1, h1.2]

theorem splitNl_joinNl_lines : ∀ {ls : List (List Char)}, ls ≠ [] →
    (∀ l ∈ ls, '\n' ∉ l) → splitNlL (joinNlL ls ++ ['\n']) = ls ++ [[]] := by
  intro ls
  induction ls with
  | nil => intro h _; exact absurd rfl h
  | cons l ls2 ih =>
    intro _ h
    match ls2, ih with
    | [], _ =>
      show splitNlL (l ++ '\n' :: []) = [l, []]
      rw [splitNl_append_nl (h l (List.mem_cons_self _ _)) []]
      rfl
    | l2 :: ls3, ih =>
      show splitNlL ((l ++ '\n' :: joinNlL (l2 :: ls3)) ++ ['\n']) = l :: ((l2 :: ls3) ++ [[]])
      rw [List.append_assoc, List.cons_append]
      rw [splitNl_append_nl (h l (List.mem_cons_self _ _))]
      rw [ih (by simp) (fun x hx => h x (List.mem_cons_of_mem _ hx))]

theorem noNl_append {a b : String} (ha : '\n' ∉ a.data) (hb : '\n' ∉ b.data) :
    '\n' ∉ (a ++ b).data := by
  rw [strData_append]
  intro h
  rcases List.mem_append.mp h with h1 | h1
  · exact ha h1
  · exact hb h1

theorem noNl_declLine {ty n : String} {v : Option String}
    (hty : '\n' ∉ ty.data) (hn : '\n' ∉ n.data)
    (hv : ∀ s, v = some s → '\n' ∉ s.data) :
    '\n' ∉ (declLineStr ty n v).data := by
  match v with
  | none =>
    show '\n' ∉ (n ++ " = None  # " ++ ty ++ " in C++").data
    exact noNl_append (noNl_append (noNl_append hn (by decide)) hty) (by decide)
  | some s =>
    show '\n' ∉ (n ++ " = " ++ s ++ "  # " ++ ty ++ " in C++").data
    exact noNl_append
      (noNl_append (noNl_append (noNl_append hn (by decide)) (hv s rfl)) (by decide)) hty
      |> fun hh => noNl_append hh (by decide)

theorem rstripNl_append_nl : ∀ l : List Char, rstripNlL (l ++ ['\n']) = rstripNlL l := by
  intro l
  induction l with
  | nil => rfl
  | cons c r ih =>
    show rstripNlL (c :: (r ++ ['\n'])) = rstripNlL (c :: r)
    simp only [rstripNlL, ih]

theorem rstripNl_of_noNl : ∀ {l : List Char}, '\n' ∉ l → rstripNlL l = l := by
  intro l
  induction l with
  | nil => intro _; rfl
  | cons c r ih =>
    intro h
    have hc : ¬ c = '\n' := fun hh => h (hh ▸ List.mem_cons_self _ _)
    rw [rstripNl_cons_ne r hc, ih (fun hh => h (List.mem_cons_of_mem _ hh))]

theorem splitNl_of_noNl : ∀ {l : List Char}, '\n' ∉ l → splitNlL l = [l] := by
  intro l
  induction l with
  | nil => intro _; rfl
  | cons c r ih =>
    intro h
    have hc : ¬ c = '\n' := fun hh => h (hh ▸ List.mem_cons_self _ _)
    obtain ⟨l2, ls2, h1, h2⟩ := splitNl_cons_ne r hc
    rw [ih (fun hh => h (List.mem_cons_of_mem _ hh))] at h1
    rw [List.cons.injEq] at h1
    rw [h2, h1.1, h1.2]

theorem strAppend_assoc (a b c : String) : a ++ b ++ c = a ++ (b ++ c) :=
  congrArg String.mk (List.append_assoc a.data b.data c.data)

theorem joinSep_cons_cons (sep s1 s2 : String) (l : List String) :
    joinSep sep (s1 :: s2 :: l) = s1 ++ sep ++ joinSep sep (s2 :: l) := rfl

theorem foldl_joinSep : ∀ (xs : List Expr) (a : String),
    xs.foldl (fun acc x => acc ++ ", " ++ transExpr x) a =
      joinSep (", ") (a :: xs.map transExpr) := by
  intro xs
  induction xs with
  | nil => intro a; rfl
  | cons x rest ih =>
    intro a
    rw [List.foldl_cons, ih, List.map_cons]
    rw [joinSep_cons_cons]
    match rest with
    | [] => rfl
    | y :: ys =>
      rw [List.map_cons, joinSep_cons_cons, joinSep_cons_cons]
      simp only [strAppend_assoc]

theorem transParams_eq_joinSep : ∀ ps : List (CType × String),
    transParams ps = joinSep (", ") (ps.map fun p => p.2) := by
  intro ps
  induction ps with
  | nil => rfl
  | cons p rest ih =>
    match p, rest with
    | (ty, n), [] => rfl
    | (ty, n), q :: qs =>
      show n ++ ", " ++ transParams (q :: qs) = _
      rw [ih]
      rfl

/-- C1: the claim says translating the three-clause loop
for (i=0; i<5; i=i+1) followed by a braced cout body produces an
initializer line, a while line, and a re-indented body.  The code
cannot do this: the expression grammar of p_expression has no
assignment form, so the parse fails at the first equals sign and the
conversion returns the fallback string.  This theorem evaluates the
embedded pipeline at the claim's own input (the brace characters of
the source text are written with hexadecimal escapes). -/
theorem c1_for_loop_not_translated :
    convert_cpp_to_python ("for (i=0; i<5; i=i+1) \x7b cout << i; \x7d") =
      "# Unable to convert C++ code." := by decide

/-- C2: a declaration yields exactly one assignment line per
declarator, in source order: int x = 5; yields exactly the line
x = 5  # int in C++, and int x; yields exactly x = None  # int in C++
(both through the full pipeline, each line followed by the final
newline p_declaration appends); in general, for every declaration
attribute the line split of the synthesized text is exactly the list
of per-declarator lines in source order (plus the empty segment after
the final newline), provided the type and the declarator payloads
contain no newline character, as lexer-produced payloads never do. -/
theorem c2_declaration_translation :
    convert_cpp_to_python ("int x = 5;") = "x = 5  # int in C++\n" ∧
    convert_cpp_to_python ("int x;") = "x = None  # int in C++\n" ∧
    ∀ (ty : String) (ds : List (String × Option String)), ds ≠ [] → '\n' ∉ ty.data →
      (∀ d ∈ ds, '\n' ∉ d.1.data ∧ ∀ s, d.2 = some s → '\n' ∉ s.data) →
      splitNlL (declStr ty ds).data =
        (ds.map fun d => (declLineStr ty d.1 d.2).data) ++ [[]] := by
  refine ⟨by decide, by decide, ?_⟩
  intro ty ds hne hty hds
  have h1 : (ds.map fun d => declLineStr ty d.1 d.2).map String.data ≠ [] := by
    simp [hne]
  have h2 : ∀ l ∈ (ds.map fun d => declLineStr ty d.1 d.2).map String.data, '\n' ∉ l := by
    intro l hl
    rw [List.mem_map] at hl
    obtain ⟨q, hq, hql⟩ := hl
    rw [List.mem_map] at hq
    obtain ⟨d, hd, hdq⟩ := hq
    rw [← hql, ← hdq]
    exact noNl_declLine hty (hds d hd).1 (hds d hd).2
  show splitNlL (joinNlL ((ds.map fun d => declLineStr ty d.1 d.2).map String.data)
      ++ ['\n']) = _
  rw [splitNl_joinNl_lines h1 h2, List.map_map]
  rfl

/-- Witness for C2 at the declaration int x = 5, y; -/
theorem c2_declaration_translation_witness :
    splitNlL (declStr ("int") [("x", some ("5")), ("y", none)]).data =
      ([("x", some ("5")), ("y", none)].map
        fun d => (declLineStr ("int") d.1 d.2).data) ++ [[]] :=
  c2_declaration_translation.2.2 ("int") [("x", some ("5")), ("y", none)]
    (by decide) (by decide) (by decide)

/-- C3 counterexample: the claim says that on a syntax error the
translation as a whole is abandoned and no partial output is
returned, the result being a diagnostic naming the offending token.
On the input cout << ; int x = 5; the parser hits a syntax error at
the first semicolon, yet PLY's default recovery discards the
offending token, restarts at the initial state, and the conversion
returns the translation of the trailing declaration alone - a partial
translation, not a diagnostic. -/
theorem c3_partial_output_counterexample :
    convert_cpp_to_python ("cout << ; int x = 5;") = "x = 5  # int in C++\n" := by decide

/-- C3 amended: on a syntax error p_error only prints the diagnostic
naming the token's value, line and position; the diagnostic is not
the returned result.  PLY's default recovery discards the offending
token and restarts at the top level, so the conversion can return the
translation of a suffix of the input (first conjunct); when the parse
produces no result the fixed string is returned instead (second
conjunct). -/
theorem c3_error_handling_amended :
    convert_cpp_to_python ("cout << ; x = 1;") = "x = 1\n" ∧
    convert_cpp_to_python (";") = "# Unable to convert C++ code." := by
  exact ⟨by decide, by decide⟩

/-- C4 counterexample: the claim says re-indenting a block that is
already correctly indented at its depth is a no-op.  The block
consisting of the single line print(x) indented one level is changed
by indent, which unconditionally adds another four-space level. -/
theorem c4_indent_counterexample :
    indent ("    print(x)\n") ≠ "    print(x)\n" := by decide

/-- C4 amended: each application of indent adds exactly one
four-space level to a non-blank single-line block, so applying it to
an already-indented block indents it one level further - the
operation is not idempotent, and correct nesting relies on calling it
exactly once per level. -/
theorem c4_indent_adds_one_level : ∀ s : String,
    '\n' ∉ s.data → lineBlankL s.data = false →
    indent (s ++ "\n") = "    " ++ s ++ "\n" ∧
    indent ("    " ++ s ++ "\n") = "        " ++ s ++ "\n" := by
  have hind : ∀ (t : List Char), '\n' ∉ t → lineBlankL t = false →
      joinNlL ((splitNlL (rstripNlL (t ++ ['\n']))).map indentLineL) ++ ['\n'] =
        (' ' :: ' ' :: ' ' :: ' ' :: t) ++ ['\n'] := by
    intro t ht hb
    rw [rstripNl_append_nl, rstripNl_of_noNl ht, splitNl_of_noNl ht]
    show joinNlL [indentLineL t] ++ ['\n'] = _
    rw [show joinNlL [indentLineL t] = indentLineL t from rfl]
    rw [indentLineL, if_neg (by rw [hb]; exact Bool.false_ne_true)]
  intro s h1 h2
  constructor
  · exact congrArg String.mk (hind s.data h1 h2)
  · have hnl2 : '\n' ∉ [' ', ' ', ' ', ' '] ++ s.data := by
      intro hm
      rcases List.mem_append.mp hm with hm1 | hm1
      · revert hm1; decide
      · exact h1 hm1
    have hb2 : lineBlankL ([' ', ' ', ' ', ' '] ++ s.data) = false := by
      rw [lineBlankL, List.all_append]
      rw [lineBlankL] at h2
      simp [h2]
    exact congrArg String.mk (hind ([' ', ' ', ' ', ' '] ++ s.data) hnl2 hb2)

/-- Witness for C4 at the line print(x). -/
theorem c4_indent_adds_one_level_witness :
    indent ("print(x)" ++ "\n") = "    " ++ "print(x)" ++ "\n" ∧
    indent ("    " ++ "print(x)" ++ "\n") = "        " ++ "print(x)" ++ "\n" :=
  c4_indent_adds_one_level ("print(x)") (by decide) (by decide)

/-- C5: a chained output statement cout << e1 << e2 ... ;
translates to a single print call whose arguments are the translated
right-hand operands joined by a comma and space, in left-to-right
source order; concretely, cout << a << b << c; becomes
print(a, b, c) through the full pipeline, and over every derivation
the cout attribute equals print of the comma-join of the translated
operand list. -/
theorem c5_chained_output :
    convert_cpp_to_python ("cout << a << b << c;") = "print(a, b, c)\n" ∧
    ∀ args : List Expr, args ≠ [] →
      transStmt (Stmt.coutStmt args) =
        "print(" ++ joinSep (", ") (args.map transExpr) ++ ")\n" := by
  refine ⟨by decide, ?_⟩
  intro args hne
  match args with
  | e :: es =>
    show ("print(") ++ transCoutArgs (e :: es) ++ ")\n" = _
    rw [transCoutArgs, foldl_joinSep, List.map_cons]

/-- Witness for C5 at the three-argument chain a, b, c. -/
theorem c5_chained_output_witness :
    transStmt (Stmt.coutStmt [Expr.ident ("a"), Expr.ident ("b"), Expr.ident ("c")]) =
      "print(" ++
        joinSep (", ") ([Expr.ident ("a"), Expr.ident ("b"), Expr.ident ("c")].map transExpr) ++
        ")\n" :=
  c5_chained_output.2 [Expr.ident ("a"), Expr.ident ("b"), Expr.ident ("c")] (by decide)

/-- C6 counterexample: the claim says line comments are discarded
with no token produced from their text.  The lexer has no comment
rule at all: the input consisting of the line comment // hi produces
two DIVIDE tokens and an IDENTIFIER token from the comment text. -/
theorem c6_comment_tokens_counterexample :
    (lexTokens ("// hi")).1 = [.DIVIDE, .DIVIDE, .IDENTIFIER ("hi")] ∧
    (lexTokens ("// hi")).1 ≠ [] := by
  exact ⟨by decide, by decide⟩

/-- C6 amended: the lexer discards spaces, tabs and carriage
returns without producing tokens, and newlines only advance the line
counter used in diagnostics; it does not recognize line comments -
the two slashes lex as two DIVIDE tokens and the comment text is
tokenized as ordinary tokens. -/
theorem c6_lexer_whitespace_amended :
    (lexTokens ("a b\tc")).1 = [.IDENTIFIER ("a"), .IDENTIFIER ("b"), .IDENTIFIER ("c")] ∧
    (lexTokens ("a b\tc")).2 = [] ∧
    (lexTokens ("@\n@")).2 =
      ["Illegal character '@' at line 1", "Illegal character '@' at line 2"] ∧
    (lexTokens ("// x\n1;")).1 =
      [.DIVIDE, .DIVIDE, .IDENTIFIER ("x"), .NUMBER ("1"), .SEMICOLON] := by
  exact ⟨by decide, by decide, by decide, by decide⟩

/-- Helper for discharging an if condition known to be false. -/
theorem not_true_of_false {b : Bool} (h : b = false) : ¬ (b = true) := by
  rw [h]
  exact Bool.false_ne_true

/-- C7: when the lexer meets a character matching no token rule (the
negation of legalStart, which enumerates exactly the rule starts of
the lexer), it produces exactly one diagnostic naming the offending
character and the current line, skips exactly one character, and the
remainder of the input is tokenized unchanged: the token stream is
that of the rest of the input and the diagnostic list gains exactly
the one new message - so lexing continues, never aborts the
translation by itself, and one diagnostic arises per offending
occurrence.  The concrete conjuncts additionally show two offending
characters yielding two diagnostics around ordinary tokens, and a
conversion that still succeeds after an illegal character is
skipped. -/
theorem c7_lexer_error_recovery :
    (∀ (fuel ln : Nat) (c : Char) (rest : List Char), legalStart c rest = false →
      lexLoop (fuel + 1) ln (c :: rest) =
        ((lexLoop fuel ln rest).1, lexErrMsg c ln :: (lexLoop fuel ln rest).2)) ∧
    lexTokens ("int @x = $5;") =
      ([.INT, .IDENTIFIER ("x"), .EQUALS, .NUMBER ("5"), .SEMICOLON],
       ["Illegal character '@' at line 1", "Illegal character '$' at line 1"]) ∧
    convert_cpp_to_python ("int x = 5 $;") = ("x = 5  # int in C++\n") := by
  refine ⟨?_, by decide, by decide⟩
  intro fuel ln c rest h
  rw [legalStart] at h
  obtain ⟨h1, h⟩ := Bool.or_eq_false_iff.mp h
  obtain ⟨h2, h⟩ := Bool.or_eq_false_iff.mp h
  obtain ⟨h3, h⟩ := Bool.or_eq_false_iff.mp h
  obtain ⟨h4, h⟩ := Bool.or_eq_false_iff.mp h
  obtain ⟨h5, h⟩ := Bool.or_eq_false_iff.mp h
  obtain ⟨h6, h⟩ := Bool.or_eq_false_iff.mp h
  obtain ⟨h7, h⟩ := Bool.or_eq_false_iff.mp h
  obtain ⟨h8, h⟩ := Bool.or_eq_false_iff.mp h
  obtain ⟨h9, h⟩ := Bool.or_eq_false_iff.mp h
  obtain ⟨h10, h⟩ := Bool.or_eq_false_iff.mp h
  obtain ⟨h11, h⟩ := Bool.or_eq_false_iff.mp h
  obtain ⟨h12, h⟩ := Bool.or_eq_false_iff.mp h
  obtain ⟨h13, h⟩ := Bool.or_eq_false_iff.mp h
  obtain ⟨h14, h⟩ := Bool.or_eq_false_iff.mp h
  obtain ⟨h15, h⟩ := Bool.or_eq_false_iff.mp h
  obtain ⟨h16, h⟩ := Bool.or_eq_false_iff.mp h
  obtain ⟨h17, h18⟩ := Bool.or_eq_false_iff.mp h
  rcases hx : lexLoop fuel ln rest with ⟨ts, ds⟩
  by_cases hq : c = '"'
  · subst hq
    rw [lexLoop]
    rw [if_neg (by decide), if_neg (by decide), if_neg (by decide),
      if_neg (by decide), if_neg (by decide), if_neg (by decide), if_pos rfl]
    have hcont : rest.contains '"' = false := by simpa using h7
    rw [if_neg (not_true_of_false hcont), hx]
    rfl
  · rw [lexLoop]
    rw [if_neg (not_true_of_false h1),
      if_neg (decide_eq_false_iff_not.mp h2),
      if_neg (decide_eq_false_iff_not.mp h3),
      if_neg (decide_eq_false_iff_not.mp h4),
      if_neg (not_true_of_false h5), if_neg (not_true_of_false h6),
      if_neg hq,
      if_neg (decide_eq_false_iff_not.mp h8),
      if_neg (decide_eq_false_iff_not.mp h9),
      if_neg (decide_eq_false_iff_not.mp h10),
      if_neg (decide_eq_false_iff_not.mp h11),
      if_neg (decide_eq_false_iff_not.mp h12),
      if_neg (decide_eq_false_iff_not.mp h13),
      if_neg (decide_eq_false_iff_not.mp h14),
      if_neg (decide_eq_false_iff_not.mp h15),
      if_neg (decide_eq_false_iff_not.mp h16),
      if_neg (decide_eq_false_iff_not.mp h17),
      if_neg (decide_eq_false_iff_not.mp h18),
      hx]
    rfl

/-- Witness for C7 at the illegal character at-sign on line 2 with one
further character of input. -/
theorem c7_lexer_error_recovery_witness :
    lexLoop 4 2 ('@' :: 'a' :: []) =
      ((lexLoop 3 2 ('a' :: [])).1, lexErrMsg '@' 2 :: (lexLoop 3 2 ('a' :: [])).2) :=
  c7_lexer_error_recovery.1 3 2 '@' ('a' :: []) (by decide)

/-- C8: for every source program built only from supported
constructs, translation terminates (the emitters are total Lean
functions) and the synthesized text contains no bare raw source
tokens: no left-shift or right-shift pair and no brace characters.
The cleanliness hypothesis states that token payloads contain no
angle-bracket or brace characters and start with a non-whitespace
character, which is true of every payload the lexer can produce; it
renders the claim's word bare, since string-literal payloads pass
through to the output verbatim by design. -/
theorem c8_no_raw_tokens : ∀ prog : StmtList, cleanStmts prog = true →
    hasPairL '<' (transStmts prog).data = false ∧
    hasPairL '>' (transStmts prog).data = false ∧
    '\x7b' ∉ (transStmts prog).data ∧ '\x7d' ∉ (transStmts prog).data := by
  intro prog h
  obtain ⟨h1, h2, h3⟩ := transStmts_inv prog h
  exact ⟨no_angle_pair (Or.inl rfl) h1, no_angle_pair (Or.inr rfl) h1, h2, h3⟩

/-- Witness for C8 at a sample program exercising include,
declarations, the entry-point guard, a for loop, chained output,
if/else, input and return. -/
theorem c8_no_raw_tokens_witness :
    hasPairL '<' (transStmts sampleProgram).data = false ∧
    hasPairL '>' (transStmts sampleProgram).data = false ∧
    '\x7b' ∉ (transStmts sampleProgram).data ∧ '\x7d' ∉ (transStmts sampleProgram).data :=
  c8_no_raw_tokens sampleProgram (by decide)

/-- C9: a function definition whose name is the entry-point name
main emits the run-only-when-invoked-directly guard around the
re-indented body with the parameters discarded, while any other
definition emits def name(params): with the comma-joined parameter
names in source order followed by the re-indented body; shown
concretely through the pipeline for int main and a two-parameter
function, and over every derivation of the function-definition
production. -/
theorem c9_function_definition :
    convert_cpp_to_python ("int main() \x7b return 0; \x7d") =
      "if __name__ == \"__main__\":\n    return 0\n" ∧
    convert_cpp_to_python ("void f(int a, int b) \x7b return a + b; \x7d") =
      "def f(a, b):\n    return a + b\n" ∧
    ∀ (ty : CType) (name : String) (ps : List (CType × String)) (b : StmtList),
      transStmt (Stmt.funcDef ty name ps b) =
        if name = "main" then
          "if __name__ == \"__main__\":\n" ++ compoundIndent (transStmts b)
        else
          "def " ++ name ++ "(" ++ joinSep (", ") (ps.map fun p => p.2) ++ "):\n" ++
            compoundIndent (transStmts b) := by
  refine ⟨by decide, by decide, ?_⟩
  intro ty name ps b
  rw [transStmt, transParams_eq_joinSep]

/-- C10: the conversion function is total at its interface: it
returns a string for every input (the embedded operations are total,
so the source's except branch, which would stringify an internal
exception, is unreachable in the model) and never returns the empty
string, and whenever the parse produces no result it returns the
fixed fallback string rather than None. -/
theorem c10_total_interface :
    (∀ s : String, convert_cpp_to_python s ≠ "") ∧
    (∀ s : String,
      parseRecover ((lexTokens s).1.length + 1) (lexTokens s).1 = none →
      convert_cpp_to_python s = "# Unable to convert C++ code.") := by
  constructor
  · intro s
    show (match parseRecover ((lexTokens s).1.length + 1) (lexTokens s).1 with
      | some result => if result = "" then ("# Unable to convert C++ code.") else result
      | none => "# Unable to convert C++ code.") ≠ ""
    split
    · split
      · decide
      · rename_i hres
        exact hres
    · decide
  · intro s h
    show (match parseRecover ((lexTokens s).1.length + 1) (lexTokens s).1 with
      | some result => if result = "" then ("# Unable to convert C++ code.") else result
      | none => "# Unable to convert C++ code.") = "# Unable to convert C++ code."
    rw [h]

/-- Witness for C10 at the empty input, whose parse yields no
result. -/
theorem c10_total_interface_witness :
    convert_cpp_to_python ("") = "# Unable to convert C++ code." :=
  c10_total_interface.2 ("") (by decide)

end Transpiler
